import Mathlib

/-!
# Verification of the alphamuddle solver and its GADDAG lexicon index

Shallow embedding of `src/solver.py` and `src/pygaddag.py`.

Conventions used throughout:
* Python exceptions are modelled with `Except PyErr`; an operation that
  cannot raise is a plain function.
* Python lists of characters are `List Char`; a 5x5 grid is a
  `List (List Char)`.
* The GADDAG is modelled with an explicit node store (`GStore`), node
  references being indices into the store, so that the aliasing and
  in-place mutation of the Python object graph is captured faithfully.
* The dictionary graph that `Solver.__init__` unpickles from
  `english/pygaddag.p` is external data (the file is not part of the
  sources); the solver model therefore takes the word-finding query
  (`GADDAG.find_lett_patt`) as a parameter.
-/

namespace Alphamuddle

/-- Python runtime errors that the modelled code can raise, plus a
`fuelOut` marker used for the recursion fuel of the search (unreachable
for well-formed 5x5 inputs). -/
inductive PyErr where
  | indexError
  | valueError
  | attributeError
  | typeError
  | keyError
  | fuelOut
  deriving Repr, DecidableEq

instance {ε α : Type _} [DecidableEq ε] [DecidableEq α] : DecidableEq (Except ε α) :=
  fun x y =>
    match x, y with
    | .ok a, .ok b =>
      if h : a = b then .isTrue (by rw [h])
      else .isFalse (by intro hc; injection hc; contradiction)
    | .error e, .error f =>
      if h : e = f then .isTrue (by rw [h])
      else .isFalse (by intro hc; injection hc; contradiction)
    | .ok _, .error _ => .isFalse (by intro hc; cases hc)
    | .error _, .ok _ => .isFalse (by intro hc; cases hc)

/-- Python `list[i]`: raises `IndexError` when out of range. -/
def pyIndex (l : List Char) (i : Nat) : Except PyErr Char :=
  match l.get? i with
  | some c => .ok c
  | none => .error .indexError

/-- Python `list.remove(x)`: removes the first occurrence of `x`,
raising `ValueError` when `x` is absent. -/
def pyRemove (l : List Char) (x : Char) : Except PyErr (List Char) :=
  if x ∈ l then .ok (l.erase x) else .error .valueError

/-- Insert a character into a sorted list (used by `sortChars`). -/
def insertSorted (a : Char) : List Char → List Char
  | [] => [a]
  | b :: bs => if a ≤ b then a :: b :: bs else b :: insertSorted a bs

/-- Python `list.sort()` on characters (insertion sort; only the
multiset and sortedness matter). Models `self.letters.sort()`. -/
def sortChars (l : List Char) : List Char :=
  l.foldr insertSorted []

/-- Build the `letter -> frequency` table exactly as `set_problem` does:
`self.occurrences[let] = self.occurrences.get(let, 0) + 1`, a dict in
first-occurrence order. -/
def occUpsert (occ : List (Char × Nat)) (c : Char) : List (Char × Nat) :=
  match occ with
  | [] => [(c, 1)]
  | (d, n) :: rest => if d = c then (d, n + 1) :: rest else (d, n) :: occUpsert rest c

/-- `Solver.set_problem`'s occurrence dictionary for a letter list. -/
def occurrencesOf (letters : List Char) : List (Char × Nat) :=
  letters.foldl occUpsert []

/-- The `singles` bucket of `set_problem`: letters of frequency exactly 1,
in dictionary iteration order. -/
def singlesOf (letters : List Char) : List Char :=
  ((occurrencesOf letters).filter (fun p => p.2 == 1)).map Prod.fst

/-- The `even` bucket of `set_problem` (frequency even). -/
def evenOf (letters : List Char) : List Char :=
  ((occurrencesOf letters).filter (fun p => p.2 ≠ 1 && p.2 % 2 == 0)).map Prod.fst

/-- The `odd` bucket of `set_problem` (frequency odd, singles included). -/
def oddOf (letters : List Char) : List Char :=
  ((occurrencesOf letters).filter (fun p => p.2 % 2 != 0)).map Prod.fst

/-- A 5x5 grid of characters, `'-'` marking an unfilled cell. -/
abbrev Grid := List (List Char)

/-- Read `grid[r][c]`.  In the solver all reads are at indices `0..4` of
a 5x5 grid, where the default is never used. -/
def getCell (g : Grid) (r c : Nat) : Char :=
  (g.getD r []).getD c '?'

/-- Write `grid[r][c] = v` (in range for all solver call sites). -/
def setCell (g : Grid) (r c : Nat) (v : Char) : Grid :=
  g.set r ((g.getD r []).set c v)

/-- Row-major traversal order of the two nested `for row/col in range(5)`
loops of `Solver.check_diagonal` (and the reset loops of `traverse`). -/
def gridPositions : List (Nat × Nat) :=
  (List.range 5).flatMap (fun r => (List.range 5).map (fun c => (r, c)))

/-- Loop body sequence of `Solver.check_diagonal`: insert missing
reflected letters, removing each from the letter pool; a failed
`list.remove` raises `ValueError`, which the caller catches by clearing
the pool (`letters.clear()`) and returning the partially updated grid. -/
def checkDiagonalGo : List (Nat × Nat) → Grid → List Char → Grid × List Char
  | [], g, ls => (g, ls)
  | (r, c) :: ps, g, ls =>
    if (getCell g r c).isAlpha && (getCell g c r == '-') then
      match pyRemove ls (getCell g r c) with
      | .ok ls' => checkDiagonalGo ps (setCell g c r (getCell g r c)) ls'
      | .error _ => (setCell g c r (getCell g r c), [])
    else if (getCell g c r).isAlpha && (getCell g r c == '-') then
      match pyRemove ls (getCell g c r) with
      | .ok ls' => checkDiagonalGo ps (setCell g r c (getCell g c r)) ls'
      | .error _ => (setCell g r c (getCell g c r), [])
    else
      checkDiagonalGo ps g ls

/-- `Solver.check_diagonal` (value-level; the aliasing of the outer-list
copy `grid = grid[:]` is modelled separately for the frame-effect
claims). -/
def checkDiagonal (g : Grid) (letters : List Char) : Grid × List Char :=
  checkDiagonalGo gridPositions g letters

/-- `Solver.check_singles`: `False` when the word places a single
occurrence letter at a position other than `row`. -/
def checkSingles (singles : List Char) (row : Nat) (word : List Char) : Bool :=
  word.enum.all (fun pc => !(singles.contains pc.2 && pc.1 != row))

/-- `Solver.get_pattern`: `''.join(solution[row])`; raises `IndexError`
when `row` is out of range (reachable only for malformed grids). -/
def getPattern (row : Nat) (sol : Grid) : Except PyErr (List Char) :=
  match sol.get? row with
  | some r => .ok r
  | none => .error .indexError

/-- First loop of `Solver.check_pattern`: blank out (set to `'-'`) each of
the first five letters already fixed by the pattern. -/
def blankFixed : List Nat → List Char → List Char → Except PyErr (List Char)
  | [], w, _ => .ok w
  | i :: is, w, patt => do
    let wi ← pyIndex w i
    let pi ← pyIndex patt i
    blankFixed is (if wi == pi then w.set i '-' else w) patt

/-- Final loop of `Solver.check_pattern`: fail when the doubled word needs
more copies of some letter than the pool offers. -/
def countCheck : List Nat → List Char → List Char → Except PyErr Bool
  | [], _, _ => .ok true
  | i :: is, w2, letters => do
    let ci ← pyIndex w2 i
    if ci.isAlpha && decide (w2.count ci > letters.count ci) then
      .ok false
    else
      countCheck is w2 letters

/-- `Solver.check_pattern`: check the word does not use more instances of
any letter than available, counting every non-fixed letter twice except
the one at the diagonal column. -/
def checkPattern (row : Nat) (word letters patt : List Char) : Except PyErr Bool := do
  let w ← blankFixed (List.range 5) word patt
  let w2 := w ++ w
  let rv ← pyIndex w2 row
  let w3 ← pyRemove w2 rv
  countCheck (List.range 5) w3 letters

/-- The filtering list comprehension
`[word for word in possibles if self.check_pattern(...)]`. -/
def filterPattM (row : Nat) (letters patt : List Char) :
    List (List Char) → Except PyErr (List (List Char))
  | [] => .ok []
  | w :: ws => do
    let b ← checkPattern row w letters patt
    let rest ← filterPattM row letters patt ws
    .ok (if b then w :: rest else rest)

/-- `Solver.get_letters`: remove from the pool each letter the word uses
beyond the fixed pattern, twice when off the diagonal column. -/
def getLettersGo : List Nat → List Char → List Char → Nat → List Char →
    Except PyErr (List Char)
  | [], _, _, _, acc => .ok acc
  | i :: is, word, patt, row, acc => do
    let wi ← pyIndex word i
    let pi ← pyIndex patt i
    if wi == pi then
      getLettersGo is word patt row acc
    else do
      let acc ← pyRemove acc wi
      let acc ← if i ≠ row then pyRemove acc wi else .ok acc
      getLettersGo is word patt row acc

/-- `Solver.get_letters`. -/
def getLetters (word letters : List Char) (row : Nat) (patt : List Char) :
    Except PyErr (List Char) :=
  getLettersGo (List.range 5) word patt row letters

/-- `Solver.set_word`: write the word into row `row` and the mirrored
column `row`. -/
def setWordGo : List Nat → List Char → Nat → Grid → Except PyErr Grid
  | [], _, _, sol => .ok sol
  | i :: is, word, row, sol => do
    let wi ← pyIndex word i
    setWordGo is word row (setCell (setCell sol row i wi) i row wi)

/-- `Solver.set_word`. -/
def setWord (word : List Char) (row : Nat) (sol : Grid) : Except PyErr Grid :=
  setWordGo (List.range 5) word row sol

/-- Python `zip(*lst)` as used by `Solver.transpose`: tuple count is the
minimum row length. -/
def minLen : List Nat → Nat
  | [] => 0
  | [n] => n
  | n :: ns => min n (minLen ns)

/-- `Solver.transpose`. -/
def pyTranspose (m : Grid) : Grid :=
  match m with
  | [] => []
  | _ => (List.range (minLen (m.map List.length))).map
      (fun i => m.map (fun row => row.getD i ' '))

/-- `Solver.check_muddle`: solution is complete (no `'-'`) and every row
occurs among the columns. -/
def checkMuddle (m : Grid) : Bool :=
  if m.any (fun r => r.contains '-') then false
  else
    let t := pyTranspose m
    (m.length == t.length) && m.all (fun r => t.contains r)

/-- Reset loop at the top of `Solver.traverse`: every cell with both
indices `>= row` is reset to the initial (diagonal-normalised) grid. -/
def resetCells (initGrid : Grid) (row : Nat) (sol : Grid) : Grid :=
  gridPositions.foldl
    (fun s rc =>
      if row ≤ rc.1 && row ≤ rc.2 then setCell s rc.1 rc.2 (getCell initGrid rc.1 rc.2) else s)
    sol

/-- The word-finding oracle: stands for
`list(self.graph.find_lett_patt(letters[:], pattern))` on the loaded
dictionary graph (external data). -/
abbrev FindOracle := List Char → List Char → Except PyErr (List (List Char))

/-- The `for word in possibles:` loop of `Solver.traverse`; `tr` is the
recursive call at `row + 1`.  The in-place mutation of `solution` is
threaded through the loop, and at row 0 the grid is first rebuilt from
the initial grid. -/
def traverseLoop (tr : Nat → List Char → Grid → Except PyErr (Grid × List Grid))
    (initGrid : Grid) (row : Nat) (letters patt : List Char) :
    List (List Char) → Grid → Except PyErr (Grid × List Grid)
  | [], sol => .ok (sol, [])
  | word :: ws, sol => do
    let sol := if row == 0 then initGrid else sol
    let sol ← setWord word row sol
    let newLetters ← getLetters word letters row patt
    let (sol, sols₁) ← tr (row + 1) newLetters sol
    let (sol, sols₂) ← traverseLoop tr initGrid row letters patt ws sol
    .ok (sol, sols₁ ++ sols₂)

/-- `Solver.traverse`: recursive row-by-row search.  Returns the final
state of the (mutated) working grid together with the list of solutions
appended during the call, in discovery order. -/
def traverse (find : FindOracle) (initGrid : Grid) (singles : List Char) :
    Nat → Nat → List Char → Grid → Except PyErr (Grid × List Grid)
  | 0, _, _, _ => .error .fuelOut
  | fuel + 1, row, letters, sol =>
    if row > 4 && checkMuddle sol then
      .ok (sol, [sol])
    else do
      let sol := resetCells initGrid row sol
      let patt ← getPattern row sol
      let possibles ← find letters patt
      let possibles := possibles.filter (checkSingles singles row)
      let possibles ← filterPattM row letters patt possibles
      traverseLoop (traverse find initGrid singles fuel) initGrid row letters patt possibles sol

/-- Result of `Solver.solve`: either the `["ERROR"]` sentinel set by
`try_grid` when the pool is empty after diagonal normalisation, or the
list of solution grids accumulated by `traverse`. -/
inductive SolveOutcome where
  | errorMark
  | solutions (gs : List Grid)
  deriving Repr, DecidableEq

/-- Letters of the problem after `set_problem`'s lower-casing, flattening
and sorting, before the used letters are removed. -/
def rackLetters (rack : List (List Char)) : List Char :=
  sortChars (rack.flatten.map Char.toLower)

/-- The lower-cased start grid of `set_problem`. -/
def startGridOf (patterns : List (List Char)) : Grid :=
  patterns.map (fun p => p.map Char.toLower)

/-- Pool after `set_problem` removed the letters already used in the
start grid (`if let in self.letters: self.letters.remove(let)`). -/
def poolAfterUsed (rack : List (List Char)) (patterns : List (List Char)) : List Char :=
  ((startGridOf patterns).flatten.filter Char.isAlpha).foldl
    (fun ls l => if ls.contains l then ls.erase l else ls)
    (rackLetters rack)

/-- `Solver.set_problem` followed by `Solver.solve`:
diagonal normalisation, the empty-pool `["ERROR"]` sentinel check of
`try_grid`, then the recursive search from row 0. -/
def solveModel (find : FindOracle) (rack patterns : List (List Char)) :
    Except PyErr SolveOutcome :=
  let cd := checkDiagonal (startGridOf patterns) (poolAfterUsed rack patterns)
  if cd.2.isEmpty then
    .ok .errorMark
  else do
    let r ← traverse find cd.1 (singlesOf (rackLetters rack)) (cd.1.length + 2) 0 cd.2 cd.1
    .ok (.solutions r.2)

/-! ## GADDAG model (`src/pygaddag.py`)

Python `Node` objects form a mutable object graph with aliasing, so the
model uses an explicit store: a node is identified by its index in a
list, mirroring object identity; all mutations go through the store. -/

/-- A GADDAG node: edge dictionary (insertion-ordered, unique keys,
values are node ids) and the `_end` flag. -/
structure GNode where
  edges : List (Char × Nat)
  isEnd : Bool
  deriving Repr, DecidableEq

/-- The node store; node ids index into it.  The root is id 0. -/
abbrev GStore := List GNode

/-- `GADDAG.__init__`: a store holding just the root node. -/
def emptyStore : GStore := [⟨[], false⟩]

/-- Dereference a node id (ids are always in range). -/
def getNode (s : GStore) (id : Nat) : GNode := s.getD id ⟨[], false⟩

/-- `char in node` / `node[char]`: dictionary lookup. -/
def edgeLookup (n : GNode) (c : Char) : Option Nat := n.edges.lookup c

/-- Python dict assignment `self._edges[char] = dst`: replace in place
when the key exists (keeping its position), else append. -/
def assocSet : List (Char × Nat) → Char → Nat → List (Char × Nat)
  | [], c, v => [(c, v)]
  | (d, w) :: rest, c, v =>
    if d = c then (d, v) :: rest else (d, w) :: assocSet rest c v

/-- Apply a function to the node with the given id. -/
def updNode (s : GStore) (id : Nat) (f : GNode → GNode) : GStore :=
  s.set id (f (getNode s id))

/-- `Node.set_edge`. -/
def setEdge (s : GStore) (id : Nat) (c : Char) (dst : Nat) : GStore :=
  updNode s id (fun n => ⟨assocSet n.edges c dst, n.isEnd⟩)

/-- `node.end = True` (the only value ever assigned). -/
def setEndTrue (s : GStore) (id : Nat) : GStore :=
  updNode s id (fun n => ⟨n.edges, true⟩)

/-- `Node(end)`: allocate a fresh node, returning its id. -/
def alloc (s : GStore) (e : Bool) : GStore × Nat := (s ++ [⟨[], e⟩], s.length)

/-- `Node.add_edge(char, dst=None, end=False)`.  As in the source, the
fresh node is allocated before the membership check (and stays orphaned
in the store when the edge already exists). -/
def addEdge (s : GStore) (id : Nat) (c : Char) (dst : Option Nat) (e : Bool) :
    GStore × Nat :=
  let sd : GStore × Nat :=
    match dst with
    | none => alloc s e
    | some d => (s, d)
  match edgeLookup (getNode sd.1 id) c with
  | some t => (sd.1, t)
  | none => (setEdge sd.1 id c sd.2, sd.2)

/-- `Node.add_path`. -/
def addPath (s : GStore) (id : Nat) (chars : List Char) : GStore × Nat :=
  chars.foldl (fun p c => addEdge p.1 p.2 c none false) (s, id)

/-- `Node.add_end`. -/
def addEnd (s : GStore) (id : Nat) (c : Char) : GStore :=
  match edgeLookup (getNode s id) c with
  | some t => setEndTrue s t
  | none => (addEdge s id c none true).1

/-- `Node.follow`: walk the characters, `KeyError` giving `None`. -/
def followFrom (s : GStore) (id : Nat) : List Char → Option Nat
  | [] => some id
  | c :: cs =>
    match edgeLookup (getNode s id) c with
    | some t => followFrom s t cs
    | none => none

/-- `GADDAG._has`: follow the reversed word, then the `'+'` edge, and
report the end flag (`KeyError` anywhere gives `False`). -/
def hasWord (s : GStore) (w : List Char) : Bool :=
  match followFrom s 0 (w.reverse ++ ['+']) with
  | some id => (getNode s id).isEnd
  | none => false

/-- `GADDAG.__contains__`: `self._has(word.lower())`. -/
def hasMember (s : GStore) (w : List Char) : Bool :=
  hasWord s (w.map Char.toLower)

/-- The `Node.edges` property: the set of edge labels, or `None` when
there are no edges. -/
def labelsOf (n : GNode) : Option (List Char) :=
  match n.edges.map Prod.fst with
  | [] => none
  | ls => some ls

/-- Python `==` on two `Node.edges` values (sets or `None`). -/
def labelsEq (a b : Option (List Char)) : Bool :=
  match a, b with
  | none, none => true
  | some x, some y => x.all (fun c => y.contains c) && y.all (fun c => x.contains c)
  | _, _ => false

/-- The suffix-edge resolution step inside `_add_word`'s loop:
```
if char in node:
    if node[char] and node[char].edges != existing_node.edges:
        raise AttributeError(...)
    node.set_edge(char, existing_node)
else:
    node.add_edge(char, existing_node)
```
`if node[char]` is the truthiness of the node, i.e. whether it has any
edges (`Node.__len__`). -/
def suffixEdgeStep (s : GStore) (id : Nat) (c : Char) (existing : Nat) :
    Except PyErr GStore :=
  match edgeLookup (getNode s id) c with
  | some t =>
    if decide ((getNode s t).edges.length > 0) &&
        !labelsEq (labelsOf (getNode s t)) (labelsOf (getNode s existing)) then
      .error .attributeError
    else
      .ok (setEdge s id c existing)
  | none => .ok (addEdge s id c (some existing) false).1

/-- The `for m in range(len(word) - 3, -1, -1)` loop of `_add_word`.
`node` is the `'+'`-node built by the previous (shorter-suffix)
iteration; `w.getD (m+1)` is in range at every call site. -/
def addWordLoop (s : GStore) (w : List Char) (node : Nat) :
    List Nat → Except PyErr GStore
  | [] => .ok s
  | m :: ms =>
    let existing := node
    let sp := addPath s 0 (w.take (m + 1)).reverse
    let sq := addEdge sp.1 sp.2 '+' none false
    let c := w.getD (m + 1) ' '
    match suffixEdgeStep sq.1 sq.2 c existing with
    | .error e => .error e
    | .ok s₂ => addWordLoop s₂ w sq.2 ms

/-- `GADDAG._add_word` (= `GADDAG.add` for a single word): returns
`False` without changes when the word is already a member, else builds
the path for every split position.  `word[-1]` raises `IndexError` on an
empty word. -/
def addWord (s : GStore) (w : List Char) : Except PyErr (GStore × Bool) :=
  if hasMember s w then .ok (s, false)
  else do
    let sn := addPath s 0 w.reverse
    let s := addEnd sn.1 sn.2 '+'
    let sp := addPath s 0 (w.take (w.length - 1)).reverse
    let sq := addEdge sp.1 sp.2 '+' none false
    let last ← match w.getLast? with
      | some c => Except.ok c
      | none => Except.error PyErr.indexError
    let s := addEnd sq.1 sq.2 last
    let s ← addWordLoop s w sq.2 ((List.range (w.length - 2)).reverse)
    .ok (s, true)

/-- Add a list of words in order, stopping at the first error
(`GADDAG.add` called repeatedly, as `create_from_file` does). -/
def addWords (s : GStore) : List (List Char) → Except PyErr GStore
  | [] => .ok s
  | w :: ws => do
    let sb ← addWord s w
    addWords sb.1 ws

/-! ### Query crawlers

Each Python generator is modelled as a function that produces the full
list of yielded values (in yield order) when the generator is iterated
to exhaustion, threading the shared `found_words` set.  Recursion over
the object graph is bounded by fuel; exhaustion is the distinguished
`fuelOut` error (the Python recursion is bounded by the acyclic graph).
-/

/-- Edge loop of `GADDAG._crawl`; `cr` is the recursive call one fuel
level down. -/
def crawlEdges
    (cr : Nat → List Char → List (List Char) → Bool →
      Except PyErr (List (List Char) × List (List Char)))
    (pw : List Char) (wrapped : Bool) :
    List (Char × Nat) → List (List Char) →
      Except PyErr (List (List Char) × List (List Char))
  | [], found => .ok ([], found)
  | (c, t) :: es, found => do
    let r ←
      if c == '+' then cr t pw found true
      else
        let npw := if wrapped then pw ++ [c] else c :: pw
        cr t npw found wrapped
    let r₂ ← crawlEdges cr pw wrapped es r.2
    .ok (r.1 ++ r₂.1, r₂.2)

/-- `GADDAG._crawl`: all words reachable from a node, prepending before
the `'+'` wrap and appending after it, deduplicated through the shared
`found_words` set. -/
def crawl (s : GStore) :
    Nat → Nat → List Char → List (List Char) → Bool →
      Except PyErr (List (List Char) × List (List Char))
  | 0, _, _, _, _ => .error .fuelOut
  | fuel + 1, id, pw, found, wrapped =>
    let n := getNode s id
    let yf : List (List Char) × List (List Char) :=
      if n.isEnd && !found.contains pw then ([pw], pw :: found) else ([], found)
    do
      let r ← crawlEdges (crawl s fuel) pw wrapped n.edges yf.2
      .ok (yf.1 ++ r.1, r.2)

/-- Edge loop of `GADDAG._crawl_end`. -/
def crawlEndEdges
    (ce : Nat → List Char → Except PyErr (List (List Char)))
    (pw : List Char) :
    List (Char × Nat) → Except PyErr (List (List Char))
  | [] => .ok []
  | (c, t) :: es => do
    let ys ← if c == '+' then Except.ok [] else ce t (c :: pw)
    let zs ← crawlEndEdges ce pw es
    .ok (ys ++ zs)

/-- `GADDAG._crawl_end`: suppresses the `'+'` traversal, so only words
ending with the partial word are produced.  A `None` start node raises
`TypeError` at `node["+"]`, caught by `except TypeError: return`, hence
the empty result. -/
def crawlEnd (s : GStore) :
    Nat → Option Nat → List Char → Except PyErr (List (List Char))
  | _, none, _ => .ok []
  | 0, some _, _ => .error .fuelOut
  | fuel + 1, some id, pw =>
    let n := getNode s id
    let ys : List (List Char) :=
      match edgeLookup n '+' with
      | some t => if (getNode s t).isEnd then [pw] else []
      | none => []
    do
      let zs ← crawlEndEdges (fun t q => crawlEnd s fuel (some t) q) pw n.edges
      .ok (ys ++ zs)

/-- Iterating the generator returned by `GADDAG.contains(sub)`.  The
`try/except TypeError` in the source wraps only the creation of the
generator, which cannot raise; when the anchor walks off the graph the
body then evaluates `None.is_end` on first iteration, raising
`AttributeError`. -/
def containsIter (s : GStore) (fuel : Nat) (sub : List Char) :
    Except PyErr (List (List Char)) :=
  match followFrom s 0 sub.reverse with
  | none => .error .attributeError
  | some id => (crawl s fuel id sub [] false).map Prod.fst

/-- `GADDAG.starts_with(prefix)` and the iteration of its result: here
the `'+'` subscript happens inside the `try`, so a missing path or
missing `'+'` edge is caught (`TypeError`/`KeyError`) and the empty set
is returned. -/
def startsWithIter (s : GStore) (fuel : Nat) (pre : List Char) :
    Except PyErr (List (List Char)) :=
  match followFrom s 0 pre.reverse with
  | none => .ok []
  | some id =>
    match edgeLookup (getNode s id) '+' with
    | none => .ok []
    | some t => (crawl s fuel t pre [] true).map Prod.fst

/-- `GADDAG.ends_with(suffix)` and the iteration of its result. -/
def endsWithIter (s : GStore) (fuel : Nat) (suf : List Char) :
    Except PyErr (List (List Char)) :=
  crawlEnd s fuel (followFrom s 0 suf.reverse) suf

/-- `GADDAG.get_newlist` (the GADDAG's own copy): remove the used letter
— or a wildcard blank when the letter is absent — when the flag is
truthy. -/
def gadNewlist (c : Char) (l : List Char) (flag : Bool) : Except PyErr (List Char) :=
  if !flag || l.isEmpty then .ok l
  else if l.contains c then .ok (l.erase c)
  else if l.contains ' ' then .ok (l.erase ' ')
  else .error .valueError

/-- Edge loop of `GADDAG._crawl_lett`. -/
def crawlLettEdges
    (cl : Nat → List Char → List Char → Nat → List (List Char) → Bool →
      Except PyErr (List (Nat × List Char) × List (List Char)))
    (pw letters : List Char) (no : Nat) (wrapped : Bool) :
    List (Char × Nat) → List (List Char) →
      Except PyErr (List (Nat × List Char) × List (List Char))
  | [], found => .ok ([], found)
  | (c, t) :: es, found => do
    let r ←
      if c == '+' then cl t pw letters no found true
      else if !letters.isEmpty && (letters.contains c || letters.contains ' ') then do
        let nl ← gadNewlist c letters (!letters.isEmpty)
        if wrapped then cl t (pw ++ [c]) nl no found wrapped
        else cl t (c :: pw) nl (no + 1) found wrapped
      else Except.ok ([], found)
    let r₂ ← crawlLettEdges cl pw letters no wrapped es r.2
    .ok (r.1 ++ r₂.1, r₂.2)

/-- `GADDAG._crawl_lett`: rack-constrained crawl, yielding
`(prefix length, word)` pairs. -/
def crawlLett (s : GStore) :
    Nat → Nat → List Char → List Char → Nat → List (List Char) → Bool →
      Except PyErr (List (Nat × List Char) × List (List Char))
  | 0, _, _, _, _, _, _ => .error .fuelOut
  | fuel + 1, id, pw, letters, no, found, wrapped =>
    let n := getNode s id
    let yf : List (Nat × List Char) × List (List Char) :=
      if n.isEnd && !found.contains pw then ([(no, pw)], pw :: found) else ([], found)
    do
      let r ← crawlLettEdges (crawlLett s fuel) pw letters no wrapped n.edges yf.2
      .ok (yf.1 ++ r.1, r.2)

/-- `GADDAG.contains_lett`: explicit `None` check before crawling. -/
def containsLettIter (s : GStore) (fuel : Nat) (sub letters : List Char) :
    Except PyErr (List (Nat × List Char)) :=
  match followFrom s 0 sub.reverse with
  | none => .ok []
  | some id => (crawlLett s fuel id sub letters 0 [] false).map Prod.fst

/-- `GADDAG.starts_with_lett`. -/
def startsWithLettIter (s : GStore) (fuel : Nat) (pre letters : List Char) :
    Except PyErr (List (Nat × List Char)) :=
  match followFrom s 0 pre.reverse with
  | none => .ok []
  | some id =>
    match edgeLookup (getNode s id) '+' with
    | none => .ok []
    | some t => (crawlLett s fuel t pre letters 0 [] true).map Prod.fst

/-- Edge loop of `GADDAG._crawl_end_lett`. -/
def crawlEndLettEdges
    (ce : Nat → List Char → List Char → Except PyErr (List (List Char)))
    (pw letters : List Char) :
    List (Char × Nat) → Except PyErr (List (List Char))
  | [] => .ok []
  | (c, t) :: es => do
    let ys ←
      if c != '+' && !letters.isEmpty && letters.contains c then do
        let nl ← gadNewlist c letters true
        ce t (c :: pw) nl
      else Except.ok []
    let zs ← crawlEndLettEdges ce pw letters es
    .ok (ys ++ zs)

/-- `GADDAG._crawl_end_lett`. -/
def crawlEndLett (s : GStore) :
    Nat → Option Nat → List Char → List Char → Except PyErr (List (List Char))
  | _, none, _, _ => .ok []
  | 0, some _, _, _ => .error .fuelOut
  | fuel + 1, some id, pw, letters =>
    let n := getNode s id
    let ys : List (List Char) :=
      match edgeLookup n '+' with
      | some t => if (getNode s t).isEnd then [pw] else []
      | none => []
    do
      let zs ← crawlEndLettEdges (fun t q l => crawlEndLett s fuel (some t) q l) pw letters n.edges
      .ok (ys ++ zs)

/-- `GADDAG.ends_with_lett`. -/
def endsWithLettIter (s : GStore) (fuel : Nat) (suf letters : List Char) :
    Except PyErr (List (List Char)) :=
  crawlEndLett s fuel (followFrom s 0 suf.reverse) suf letters

/-- Truthiness of the optional rack of `contains_lett_patt`. -/
def truthyOL : Option (List Char) → Bool
  | none => false
  | some l => !l.isEmpty

/-- Truthiness of the optional position-pattern dict. -/
def truthyOP : Option (List (Nat × Char)) → Bool
  | none => false
  | some l => !l.isEmpty

/-- `GADDAG.get_newlist` applied to a possibly-`None` rack (a `None`
rack is falsy, so it is returned unchanged). -/
def gadNewlistO (c : Char) (l : Option (List Char)) (flag : Bool) :
    Except PyErr (Option (List Char)) :=
  match l with
  | none => .ok none
  | some l' => do
    let r ← gadNewlist c l' flag
    .ok (some r)

/-- Edge loop of `GADDAG._crawl_lett_patt`, with the three `conditions`
of the source. -/
def crawlLPEdges
    (cl : Nat → List Char → Option (List Char) → Nat → Nat → List (List Char) →
      Bool → Except PyErr (List (Nat × List Char) × List (List Char)))
    (pw : List Char) (letters : Option (List Char))
    (pattern : Option (List (Nat × Char))) (no pos : Nat) (wrapped : Bool) :
    List (Char × Nat) → List (List Char) →
      Except PyErr (List (Nat × List Char) × List (List Char))
  | [], found => .ok ([], found)
  | (c, t) :: es, found => do
    let cond0 : Bool :=
      !truthyOL letters ||
        (truthyOL letters &&
          ((letters.getD []).contains c || (letters.getD []).contains ' '))
    let cond1 : Bool := truthyOP pattern && ((pattern.getD []).lookup pos).isSome
    let cond2 : Bool := truthyOP pattern && ((pattern.getD []).lookup pos == some c)
    let r ←
      if c == '+' then cl t pw letters no pos found true
      else if wrapped && (cond2 || (!cond1 && cond0)) then do
        let nl ← gadNewlistO c letters (truthyOL letters && !cond2)
        cl t (pw ++ [c]) nl no (pos + 1) found wrapped
      else if !wrapped && cond0 then do
        let nl ← gadNewlistO c letters (truthyOL letters)
        cl t (c :: pw) nl (no + 1) pos found wrapped
      else Except.ok ([], found)
    let r₂ ← crawlLPEdges cl pw letters pattern no pos wrapped es r.2
    .ok (r.1 ++ r₂.1, r₂.2)

/-- `GADDAG._crawl_lett_patt`. -/
def crawlLP (s : GStore) (pattern : Option (List (Nat × Char))) :
    Nat → Nat → List Char → Option (List Char) → Nat → Nat →
      List (List Char) → Bool →
      Except PyErr (List (Nat × List Char) × List (List Char))
  | 0, _, _, _, _, _, _, _ => .error .fuelOut
  | fuel + 1, id, pw, letters, no, pos, found, wrapped =>
    let n := getNode s id
    let yf : List (Nat × List Char) × List (List Char) :=
      if n.isEnd && !found.contains pw then ([(no, pw)], pw :: found) else ([], found)
    do
      let r ← crawlLPEdges
        (fun t q l no₂ pos₂ f w => crawlLP s pattern fuel t q l no₂ pos₂ f w)
        pw letters pattern no pos wrapped n.edges yf.2
      .ok (yf.1 ++ r.1, r.2)

/-- `GADDAG.contains_lett_patt`. -/
def containsLPIter (s : GStore) (fuel : Nat) (sub : List Char)
    (letters : Option (List Char)) (pattern : Option (List (Nat × Char))) :
    Except PyErr (List (Nat × List Char)) :=
  match followFrom s 0 sub.reverse with
  | none => .ok []
  | some id => (crawlLP s pattern fuel id sub letters 0 0 [] false).map Prod.fst

/-- `GADDAG.check_pattern`: positional match of a candidate against a
fixed-length wildcard pattern. -/
def gadCheckPattern (pw patt : List Char) : Bool :=
  pw.length == patt.length &&
    (List.zip pw patt).all (fun pc => pc.2 == '-' || pc.1 == pc.2)

/-- The in-place mutation at the top of `GADDAG.find_lett_patt`:
`for char in pattern: if char.isalpha(): letters.append(char)`. -/
def findLettPattLetters (letters patt : List Char) : List Char :=
  patt.foldl (fun ls c => if c.isAlpha then ls ++ [c] else ls) letters

/-- Edge loop of `GADDAG._crawl_find_lett_patt`. -/
def crawlFindEdges
    (cf : Nat → List Char → List Char → List (List Char) → Bool →
      Except PyErr (List (List Char) × List (List Char)))
    (pw letters patt : List Char) (wrapped : Bool) :
    List (Char × Nat) → List (List Char) →
      Except PyErr (List (List Char) × List (List Char))
  | [], found => .ok ([], found)
  | (c, t) :: es, found => do
    let r ←
      if c == '+' then cf t pw letters found true
      else if letters.contains c && decide (pw.length < patt.length) then do
        let nl ← gadNewlist c letters (!letters.isEmpty)
        if wrapped then cf t (pw ++ [c]) nl found wrapped
        else cf t (c :: pw) nl found wrapped
      else Except.ok ([], found)
    let r₂ ← crawlFindEdges cf pw letters patt wrapped es r.2
    .ok (r.1 ++ r₂.1, r₂.2)

/-- `GADDAG._crawl_find_lett_patt`: whole-graph crawl bounded by the
pattern length, yielding only terminal words that match the pattern
(non-matching terminals are not recorded in `found_words` either). -/
def crawlFind (s : GStore) (patt : List Char) :
    Nat → Nat → List Char → List Char → List (List Char) → Bool →
      Except PyErr (List (List Char) × List (List Char))
  | 0, _, _, _, _, _ => .error .fuelOut
  | fuel + 1, id, pw, letters, found, wrapped =>
    let n := getNode s id
    let yf : List (List Char) × List (List Char) :=
      if n.isEnd && !found.contains pw && gadCheckPattern pw patt then
        ([pw], pw :: found)
      else ([], found)
    do
      let r ← crawlFindEdges (fun t q l f w => crawlFind s patt fuel t q l f w)
        pw letters patt wrapped n.edges yf.2
      .ok (yf.1 ++ r.1, r.2)

/-- `GADDAG.find_lett_patt`: mutates the caller's letter list in place
(first component of the result), then hands back the crawl generator
(second component: the sequence it yields when iterated). -/
def findLettPatt (s : GStore) (fuel : Nat) (letters patt : List Char) :
    List Char × Except PyErr (List (List Char)) :=
  let letters := findLettPattLetters letters patt
  (letters, (crawlFind s patt fuel 0 [] letters [] false).map Prod.fst)

/-! ### Row-aliasing model of `check_diagonal`

`Solver.check_diagonal` does `grid = grid[:]` — a shallow copy of the
outer list only — so its writes `grid[c][r] = ...` mutate the row
objects shared with the caller's `self.start_grid`.  To express this
frame effect, rows live in a row store and a grid is a list of row
references. -/

/-- Store of row objects; a grid is a list of indices into it. -/
abbrev RowStore := List (List Char)

/-- Dereference a row id. -/
def getRow (rs : RowStore) (i : Nat) : List Char := rs.getD i []

/-- The grid value observed through a list of row references. -/
def readGridR (rs : RowStore) (ids : List Nat) : Grid := ids.map (getRow rs)

/-- Read `grid[r][c]` through the store. -/
def cellR (rs : RowStore) (ids : List Nat) (r c : Nat) : Char :=
  (getRow rs (ids.getD r 0)).getD c '?'

/-- Write `grid[r][c] = v` through the store (mutating the shared row
object). -/
def writeR (rs : RowStore) (ids : List Nat) (r c : Nat) (v : Char) : RowStore :=
  rs.set (ids.getD r 0) ((getRow rs (ids.getD r 0)).set c v)

/-- `Solver.check_diagonal` on the row store.  The `grid = grid[:]`
outer copy leaves the row references unchanged, so the returned grid is
the same id list and all writes are visible through the caller's
references. -/
def checkDiagonalRGo : List (Nat × Nat) → RowStore → List Nat → List Char →
    RowStore × List Char
  | [], rs, _, ls => (rs, ls)
  | (r, c) :: ps, rs, ids, ls =>
    if (cellR rs ids r c).isAlpha && (cellR rs ids c r == '-') then
      match pyRemove ls (cellR rs ids r c) with
      | .ok ls' => checkDiagonalRGo ps (writeR rs ids c r (cellR rs ids r c)) ids ls'
      | .error _ => (writeR rs ids c r (cellR rs ids r c), [])
    else if (cellR rs ids c r).isAlpha && (cellR rs ids r c == '-') then
      match pyRemove ls (cellR rs ids c r) with
      | .ok ls' => checkDiagonalRGo ps (writeR rs ids r c (cellR rs ids c r)) ids ls'
      | .error _ => (writeR rs ids r c (cellR rs ids c r), [])
    else
      checkDiagonalRGo ps rs ids ls

/-- `Solver.check_diagonal` through the row store: returns the mutated
store, the grid it returns (the same row references, thanks to the
shallow `grid[:]` copy), and the letter list. -/
def checkDiagonalR (rs : RowStore) (ids : List Nat) (letters : List Char) :
    RowStore × List Nat × List Char :=
  let r := checkDiagonalRGo gridPositions rs ids letters
  (r.1, ids, r.2)

/-! ### Invariants used by the solver theorems -/

/-- A well-formed 5x5 grid. -/
def gridWF (g : Grid) : Prop :=
  g.length = 5 ∧ ∀ i, i < 5 → (g.getD i []).length = 5

/-- Mirror symmetry of every cell pair at least one of whose indices is
below `row` (the rows already committed by the search). -/
def symBelow (row : Nat) (g : Grid) : Prop :=
  ∀ a b, a < 5 → b < 5 → (a < row ∨ b < row) → getCell g a b = getCell g b a

/-- No single-occurrence letter sits off the diagonal in the committed
region. -/
def noSinglesBelow (singles : List Char) (row : Nat) (g : Grid) : Prop :=
  ∀ a b, a < 5 → b < 5 → a ≠ b → (a < row ∨ b < row) → getCell g a b ∉ singles

/-- The property of every solution grid the search appends: full mirror
symmetry, no wildcard cell, and no single-occurrence letter off the
diagonal. -/
def SolsOK (singles : List Char) (gs : List Grid) : Prop :=
  ∀ g ∈ gs,
    (∀ a b, a < 5 → b < 5 → getCell g a b = getCell g b a) ∧
    (∀ row ∈ g, '-' ∉ row) ∧
    (∀ a b, a < 5 → b < 5 → a ≠ b → getCell g a b ∉ singles)

/-! ### Concrete fixtures -/

/-- An oracle standing in for a dictionary graph with no matching words
(sufficient whenever the run never reaches the search). -/
def nilFind : FindOracle := fun _ _ => .ok []

/-- A fully resolved, symmetric 5x5 grid. -/
def solvedGrid : List (List Char) :=
  [['a', 'b', 'c', 'd', 'e'],
   ['b', 'f', 'g', 'h', 'i'],
   ['c', 'g', 'j', 'k', 'l'],
   ['d', 'h', 'k', 'm', 'n'],
   ['e', 'i', 'l', 'n', 'o']]

/-- A rack of 25 distinct letters containing exactly one `'a'`. -/
def exampleRack : List (List Char) :=
  [['a', 'b', 'c', 'd', 'e'],
   ['f', 'g', 'h', 'i', 'j'],
   ['k', 'l', 'm', 'n', 'o'],
   ['p', 'q', 'r', 's', 't'],
   ['u', 'v', 'w', 'x', 'y']]

/-- Pattern with `'a'` at cell (0,2) and `'-'` at its mirror (2,0). -/
def examplePattern : List (List Char) :=
  [['-', '-', 'a', '-', '-'],
   ['-', '-', '-', '-', '-'],
   ['-', '-', '-', '-', '-'],
   ['-', '-', '-', '-', '-'],
   ['-', '-', '-', '-', '-']]

/-- The all-wildcard 5x5 pattern. -/
def emptyPattern : List (List Char) :=
  [['-', '-', '-', '-', '-'],
   ['-', '-', '-', '-', '-'],
   ['-', '-', '-', '-', '-'],
   ['-', '-', '-', '-', '-'],
   ['-', '-', '-', '-', '-']]

/-! ### Invariants used by the GADDAG theorems

The object graph built by `_add_word` keeps "path" nodes (reached from
the root by letter edges) disjoint from "`'+'`-side" nodes (reached
through a `'+'` edge); `set_edge` only ever rewires the latter, which is
what keeps finished membership paths stable. -/

/-- Structural invariant of a GADDAG store, parameterised by the set of
`'+'`-side node ids: the root is a path node, every edge target is in
range, letter edges from path nodes stay on the path side, `'+'` edges
from path nodes cross over, and all edges from `'+'`-side nodes stay on
the `'+'` side. -/
def GInv (s : GStore) (plus : Set Nat) : Prop :=
  0 < s.length ∧ 0 ∉ plus ∧ (∀ i ∈ plus, i < s.length) ∧
  ∀ id, id < s.length → ∀ ce ∈ (getNode s id).edges,
    ce.2 < s.length ∧
    (id ∉ plus → (ce.1 = '+' → ce.2 ∈ plus) ∧ (ce.1 ≠ '+' → ce.2 ∉ plus)) ∧
    (id ∈ plus → ce.2 ∈ plus)

/-- A well-formed GADDAG store. -/
def WFStore (s : GStore) : Prop := ∃ plus, GInv s plus

/-- The store grew and every path-side binding and every end flag
survived (the `'+'`-side may have been rewired). -/
def PathSafe (plus : Set Nat) (s s' : GStore) : Prop :=
  s.length ≤ s'.length ∧
  (∀ id c t, id < s.length → id ∉ plus →
    edgeLookup (getNode s id) c = some t → edgeLookup (getNode s' id) c = some t) ∧
  (∀ id, id < s.length → (getNode s id).isEnd = true → (getNode s' id).isEnd = true)

/-- The store grew and every binding and end flag survived (no
rewiring at all). -/
def StoreMono (s s' : GStore) : Prop :=
  s.length ≤ s'.length ∧
  (∀ id c t, id < s.length →
    edgeLookup (getNode s id) c = some t → edgeLookup (getNode s' id) c = some t) ∧
  (∀ id, id < s.length → (getNode s id).isEnd = true → (getNode s' id).isEnd = true)

/-- One construction step: the `'+'`-side only gained fresh ids, the
invariant holds again, and the original path side is intact. -/
def StepOK (plus : Set Nat) (s : GStore) (plus' : Set Nat) (s' : GStore) : Prop :=
  plus ⊆ plus' ∧ (∀ i ∈ plus', i < s.length → i ∈ plus) ∧
  GInv s' plus' ∧ PathSafe plus s s'

/-- A word the insertion claims are about: at least two letters, all
lowercase. -/
def goodWord (w : List Char) : Prop :=
  2 ≤ w.length ∧ ∀ c ∈ w, 'a' ≤ c ∧ c ≤ 'z'

/-- Store after adding the word "ab" to an empty GADDAG. -/
def storeAB : GStore := ((addWord emptyStore ['a', 'b']).toOption.getD (emptyStore, false)).1

/-- Store after then adding the word "abc". -/
def storeABC : GStore := ((addWord storeAB ['a', 'b', 'c']).toOption.getD (storeAB, false)).1

/-! ## Theorems -/

/-- Helper: `findLettPattLetters` appends exactly the alphabetic
characters of the pattern, in order. -/
theorem findLettPattLetters_eq (patt letters : List Char) :
    findLettPattLetters letters patt = letters ++ patt.filter Char.isAlpha := by
  induction patt generalizing letters with
  | nil => simp [findLettPattLetters]
  | cons c cs ih =>
    unfold findLettPattLetters at ih ⊢
    simp only [List.foldl_cons, List.filter_cons]
    by_cases h : c.isAlpha
    · simp [h, ih]
    · simp [h, ih]

/-- C9 (confirmed): `GADDAG.find_lett_patt(letters, pattern)` mutates the
caller's letters list in place at call time (before the returned
generator is consumed): afterwards the list equals the original list
extended by one copy of every alphabetic character of the pattern, in
pattern order (so callers that must keep their rack intact have to pass
a copy, as `Solver.traverse` does with `letters[:]`). -/
theorem find_lett_patt_mutates_rack (s : GStore) (fuel : Nat) (letters patt : List Char) :
    (findLettPatt s fuel letters patt).1 = letters ++ patt.filter Char.isAlpha := by
  show findLettPattLetters letters patt = _
  exact findLettPattLetters_eq patt letters

/-- C3 (code bug): on a fully resolved symmetric pattern with a rack
matching it exactly, `set_problem` strips every rack letter as "already
used", `check_diagonal` is a no-op, and `try_grid`'s `if not
self.letters` test — meant to detect the exhausted-pool failure of
diagonal normalisation — misfires on the legitimately empty pool, so
`solve` returns the `["ERROR"]` sentinel instead of the solved grid. -/
theorem solve_on_solved_grid_yields_error_sentinel :
    solveModel nilFind solvedGrid solvedGrid = .ok .errorMark := by decide

/-- Helper: `_crawl_end` on a `None` start node yields nothing (the
`except TypeError: return` path), at any fuel. -/
theorem crawlEnd_none (s : GStore) (fuel : Nat) (pw : List Char) :
    crawlEnd s fuel none pw = .ok [] := by
  cases fuel <;> rfl

/-- Helper: `_crawl_end_lett` on a `None` start node yields nothing. -/
theorem crawlEndLett_none (s : GStore) (fuel : Nat) (pw letters : List Char) :
    crawlEndLett s fuel none pw letters = .ok [] := by
  cases fuel <;> rfl

/-- C5 (corrected): when the anchor's reversed path walks off the graph,
`starts_with`, `ends_with` and the rack/pattern variants yield an empty
sequence without error, but `contains` — whose `except TypeError` guards
only the creation of the generator — raises `AttributeError`
(`None.is_end`) as soon as the returned generator is iterated. -/
theorem queries_missing_anchor_behaviour (s : GStore) (fuel : Nat)
    (anchor letters : List Char) (ol : Option (List Char))
    (op : Option (List (Nat × Char)))
    (h : followFrom s 0 anchor.reverse = none) :
    containsIter s fuel anchor = .error .attributeError ∧
    startsWithIter s fuel anchor = .ok [] ∧
    endsWithIter s fuel anchor = .ok [] ∧
    containsLettIter s fuel anchor letters = .ok [] ∧
    startsWithLettIter s fuel anchor letters = .ok [] ∧
    endsWithLettIter s fuel anchor letters = .ok [] ∧
    containsLPIter s fuel anchor ol op = .ok [] := by
  refine ⟨?_, ?_, ?_, ?_, ?_, ?_, ?_⟩
  · unfold containsIter; rw [h]
  · unfold startsWithIter; rw [h]
  · unfold endsWithIter; rw [h]; exact crawlEnd_none s fuel anchor
  · unfold containsLettIter; rw [h]
  · unfold startsWithLettIter; rw [h]
  · unfold endsWithLettIter; rw [h]; exact crawlEndLett_none s fuel anchor letters
  · unfold containsLPIter; rw [h]

/-- Witness for C5's theorem at a concrete input: the empty GADDAG and
anchor "a". -/
theorem queries_missing_anchor_behaviour_witness :
    followFrom emptyStore 0 (['a'].reverse) = none ∧
    (containsIter emptyStore 9 ['a'] = .error .attributeError ∧
      startsWithIter emptyStore 9 ['a'] = .ok [] ∧
      endsWithIter emptyStore 9 ['a'] = .ok [] ∧
      containsLettIter emptyStore 9 ['a'] ['a'] = .ok [] ∧
      startsWithLettIter emptyStore 9 ['a'] ['a'] = .ok [] ∧
      endsWithLettIter emptyStore 9 ['a'] ['a'] = .ok [] ∧
      containsLPIter emptyStore 9 ['a'] none none = .ok []) :=
  ⟨by decide, queries_missing_anchor_behaviour emptyStore 9 ['a'] ['a'] none none (by decide)⟩

/-- C5 counterexample: iterating the sequence returned by
`contains` on an anchor with no edge from the root raises
`AttributeError` — not the error-free empty sequence the claim
states. -/
theorem contains_missing_anchor_raises :
    containsIter emptyStore 9 ['a'] = .error .attributeError := by decide

/-- C8 counterexample: after inserting "ab", inserting "abc" reaches a
split where the suffix edge (`'b'` out of the node at path "a"+`'+'`,
node 5) already exists and leads to node 6 — a node different from node
3 built by the previous iteration (their contents differ too) — yet the
insertion completes without any error and the edge is silently
overwritten to point at node 3. -/
theorem insert_divergent_edge_not_raised :
    addWord storeAB ['a', 'b', 'c'] = .ok (storeABC, true) ∧
    edgeLookup (getNode storeAB 5) 'b' = some 6 ∧
    edgeLookup (getNode storeABC 5) 'b' = some 3 ∧
    getNode storeABC 6 ≠ getNode storeABC 3 := by decide

/-- C8 (corrected): the loop of `_add_word` raises `AttributeError` only
when the pre-existing target of the suffix edge has at least one
outgoing edge *and* its edge-label set differs from that of the node
built by the previous iteration; otherwise — in particular when the
existing target is a bare end node, even a different node — the edge is
silently overwritten with `set_edge`. -/
theorem suffix_edge_overwrite_spec (s : GStore) (id : Nat) (c : Char) (ex t : Nat)
    (h : edgeLookup (getNode s id) c = some t) :
    (suffixEdgeStep s id c ex = .error .attributeError ↔
      (getNode s t).edges ≠ [] ∧
        labelsEq (labelsOf (getNode s t)) (labelsOf (getNode s ex)) = false) ∧
    (suffixEdgeStep s id c ex ≠ .error .attributeError →
      suffixEdgeStep s id c ex = .ok (setEdge s id c ex)) := by
  unfold suffixEdgeStep
  rw [h]
  by_cases hlen : (getNode s t).edges = []
  · simp [hlen]
  · have hpos : decide ((getNode s t).edges.length > 0) = true := by
      simp [List.length_pos, hlen]
    by_cases heq : labelsEq (labelsOf (getNode s t)) (labelsOf (getNode s ex)) = true
    · simp [hpos, heq, hlen]
    · simp only [Bool.not_eq_true] at heq
      simp [hpos, heq, hlen]

/-- Helper: `getD` after `set` at a different index. -/
theorem getD_set_ne {α : Type _} (l : List α) (i j : Nat) (v d : α) (h : i ≠ j) :
    (l.set i v).getD j d = l.getD j d := by
  induction l generalizing i j with
  | nil => rfl
  | cons a as ih =>
    cases i with
    | zero =>
      cases j with
      | zero => exact absurd rfl h
      | succ j => rfl
    | succ i =>
      cases j with
      | zero => rfl
      | succ j =>
        simpa using ih i j (fun hc => h (by rw [hc]))

/-- Helper: `getD` after `set` at the same, in-range index. -/
theorem getD_set_self {α : Type _} (l : List α) (i : Nat) (v d : α) (h : i < l.length) :
    (l.set i v).getD i d = v := by
  induction l generalizing i with
  | nil => simp at h
  | cons a as ih =>
    cases i with
    | zero => rfl
    | succ i => simpa using ih i (by simpa using h)

/-- Helper: `set` out of range is the identity. -/
theorem set_oob {α : Type _} (l : List α) (i : Nat) (v : α) (h : l.length ≤ i) :
    l.set i v = l := by
  induction l generalizing i with
  | nil => rfl
  | cons a as ih =>
    cases i with
    | zero => simp at h
    | succ i => simpa using ih i (by simpa using h)

/-- Helper: a write at `(r, c)` leaves every other cell unchanged. -/
theorem getCell_setCell_ne (g : Grid) (r c r' c' : Nat) (v : Char)
    (h : r' ≠ r ∨ c' ≠ c) :
    getCell (setCell g r c v) r' c' = getCell g r' c' := by
  unfold getCell setCell
  rcases h with h | h
  · rw [getD_set_ne _ _ _ _ _ (fun hc => h hc.symm)]
  · rcases Nat.lt_or_ge r g.length with hr | hr
    · by_cases hrr : r' = r
      · subst hrr
        rw [getD_set_self _ _ _ _ hr, getD_set_ne _ _ _ _ _ (fun hc => h hc.symm)]
      · rw [getD_set_ne _ _ _ _ _ (fun hc => hrr hc.symm)]
    · rw [set_oob _ _ _ hr]

/-- Helper: a write at an in-range `(r, c)` is read back. -/
theorem getCell_setCell_self (g : Grid) (r c : Nat) (v : Char)
    (hr : r < g.length) (hc : c < (g.getD r []).length) :
    getCell (setCell g r c v) r c = v := by
  unfold getCell setCell
  rw [getD_set_self _ _ _ _ hr, getD_set_self _ _ _ _ hc]

/-- Helper: membership in the 5x5 traversal order. -/
theorem mem_gridPositions (r c : Nat) (hr : r < 5) (hc : c < 5) :
    (r, c) ∈ gridPositions := by
  unfold gridPositions
  simp only [List.mem_flatMap, List.mem_map, List.mem_range]
  exact ⟨r, hr, c, hc, rfl⟩

/-- Helper: a letter absent from the pool makes `pyRemove` raise. -/
theorem pyRemove_not_mem (l : List Char) (x : Char) (h : x ∉ l) :
    pyRemove l x = .error .valueError := by
  simp [pyRemove, h]

/-- Helper: erasing keeps absence. -/
theorem not_mem_erase_of_not_mem (l : List Char) (x y : Char) (h : x ∉ l) :
    x ∉ l.erase y := fun hc => h (List.erase_subset _ _ hc)

/-- Helper: when some cell `(r, c)` is filled, its mirror is empty and
the filling letter is missing from the pool, the `check_diagonal` loop
raises `ValueError` at the first visit of that pair (or aborts even
earlier), so the returned letter list is the cleared `[]`. -/
theorem checkDiagonalGo_missing :
    ∀ (ps : List (Nat × Nat)) (g : Grid) (ls : List Char) (r c : Nat),
      (getCell g r c).isAlpha = true → getCell g c r = '-' →
      getCell g r c ∉ ls → ((r, c) ∈ ps ∨ (c, r) ∈ ps) →
      (checkDiagonalGo ps g ls).2 = [] := by
  intro ps
  induction ps with
  | nil =>
    intro g ls r c _ _ _ hmem
    rcases hmem with h | h <;> simp at h
  | cons p ps ih =>
    intro g ls r c halpha hmirror hmiss hmem
    obtain ⟨a, b⟩ := p
    have hrc : r ≠ c := by
      intro h
      subst h
      rw [hmirror] at halpha
      simp at halpha
    by_cases h1 : (a, b) = (r, c)
    · obtain ⟨ha, hb⟩ := Prod.mk.injEq a b r c ▸ h1
      subst ha; subst hb
      unfold checkDiagonalGo
      rw [if_pos (by rw [halpha, hmirror]; rfl)]
      rw [pyRemove_not_mem _ _ hmiss]
    · by_cases h2 : (a, b) = (c, r)
      · obtain ⟨ha, hb⟩ := Prod.mk.injEq a b c r ▸ h2
        subst ha; subst hb
        unfold checkDiagonalGo
        rw [if_neg (by rw [hmirror]; simp)]
        rw [if_pos (by rw [halpha, hmirror]; rfl)]
        rw [pyRemove_not_mem _ _ hmiss]
      · have hmem' : (r, c) ∈ ps ∨ (c, r) ∈ ps := by
          rcases hmem with h | h
          · exact Or.inl (by
              rcases List.mem_cons.mp h with h | h
              · exact absurd h.symm h1
              · exact h)
          · exact Or.inr (by
              rcases List.mem_cons.mp h with h | h
              · exact absurd h.symm h2
              · exact h)
        have hne1 : (b, a) ≠ (r, c) := by
          intro hcon
          obtain ⟨hb, ha⟩ := Prod.mk.injEq b a r c ▸ hcon
          exact h2 (by rw [ha, hb])
        have hne2 : (b, a) ≠ (c, r) := by
          intro hcon
          obtain ⟨hb, ha⟩ := Prod.mk.injEq b a c r ▸ hcon
          exact h1 (by rw [ha, hb])
        have hne3 : (a, b) ≠ (r, c) := h1
        have hne4 : (a, b) ≠ (c, r) := h2
        have hfr : ∀ v, getCell (setCell g b a v) r c = getCell g r c := by
          intro v
          exact getCell_setCell_ne g b a r c v (by
            by_contra hcon
            push_neg at hcon
            exact hne1 (by rw [hcon.1, hcon.2]))
        have hfr' : ∀ v, getCell (setCell g b a v) c r = getCell g c r := by
          intro v
          exact getCell_setCell_ne g b a c r v (by
            by_contra hcon
            push_neg at hcon
            exact hne2 (by rw [hcon.1, hcon.2]))
        have hfs : ∀ v, getCell (setCell g a b v) r c = getCell g r c := by
          intro v
          exact getCell_setCell_ne g a b r c v (by
            by_contra hcon
            push_neg at hcon
            exact hne3 (by rw [hcon.1, hcon.2]))
        have hfs' : ∀ v, getCell (setCell g a b v) c r = getCell g c r := by
          intro v
          exact getCell_setCell_ne g a b c r v (by
            by_contra hcon
            push_neg at hcon
            exact hne4 (by rw [hcon.1, hcon.2]))
        have herase : ∀ (v : Char) (ls' : List Char), pyRemove ls v = .ok ls' →
            getCell g r c ∉ ls' := by
          intro v ls' hrem
          have : ls' = ls.erase v := by
            unfold pyRemove at hrem
            by_cases hm : v ∈ ls
            · rw [if_pos hm] at hrem; injection hrem with h; exact h.symm
            · rw [if_neg hm] at hrem; cases hrem
          rw [this]
          exact not_mem_erase_of_not_mem _ _ _ hmiss
        unfold checkDiagonalGo
        by_cases hb1 : ((getCell g a b).isAlpha && (getCell g b a == '-')) = true
        · rw [if_pos hb1]
          cases hrem : pyRemove ls (getCell g a b) with
          | ok ls' =>
            exact ih (setCell g b a (getCell g a b)) ls' r c
              (by rw [hfr]; exact halpha) (by rw [hfr']; exact hmirror)
              (by rw [hfr]; exact herase _ _ hrem)
              hmem'
          | error e => rfl
        · rw [if_neg hb1]
          by_cases hb2 : ((getCell g b a).isAlpha && (getCell g a b == '-')) = true
          · rw [if_pos hb2]
            cases hrem : pyRemove ls (getCell g b a) with
            | ok ls' =>
              exact ih (setCell g a b (getCell g b a)) ls' r c
                (by rw [hfs]; exact halpha) (by rw [hfs']; exact hmirror)
                (by rw [hfs]; exact herase _ _ hrem)
                hmem'
            | error e => rfl
          · rw [if_neg hb2]
            exact ih g ls r c halpha hmirror hmiss hmem'

/-- C4 (confirmed): whenever diagonal normalisation must mirror a filled
cell into its empty partner but the pool holds no instance of that
letter, `solve` returns the distinct `["ERROR"]` sentinel: no exception
escapes (the `ValueError` is caught and the pool cleared) and the result
is not the empty list used for "zero solutions after full search". -/
theorem solve_unsatisfiable_mirror_is_sentinel (find : FindOracle)
    (rack patterns : List (List Char))
    (hlen : patterns.length = 5) (hrows : ∀ p ∈ patterns, p.length = 5)
    (hw : ∃ r c, r < 5 ∧ c < 5 ∧
      (getCell (startGridOf patterns) r c).isAlpha = true ∧
      getCell (startGridOf patterns) c r = '-' ∧
      getCell (startGridOf patterns) r c ∉ poolAfterUsed rack patterns) :
    solveModel find rack patterns = .ok .errorMark := by
  obtain ⟨r, c, hr, hc, halpha, hmirror, hmiss⟩ := hw
  unfold solveModel
  have hempty : (checkDiagonal (startGridOf patterns) (poolAfterUsed rack patterns)).2 = [] := by
    unfold checkDiagonal
    exact checkDiagonalGo_missing gridPositions _ _ r c halpha hmirror hmiss
      (Or.inl (mem_gridPositions r c hr hc))
  simp only [hempty]
  rfl

/-- Witness for C4's theorem: the concrete scenario of the claim,
`'a'` at (0,2), `'-'` at (2,0), the rack's only `'a'` consumed by the
pre-filled cell. -/
theorem solve_unsatisfiable_mirror_is_sentinel_witness :
    (examplePattern.length = 5 ∧ (∀ p ∈ examplePattern, p.length = 5) ∧
      0 < 5 ∧ 2 < 5 ∧
      (getCell (startGridOf examplePattern) 0 2).isAlpha = true ∧
      getCell (startGridOf examplePattern) 2 0 = '-' ∧
      getCell (startGridOf examplePattern) 0 2 ∉ poolAfterUsed exampleRack examplePattern) ∧
    solveModel nilFind exampleRack examplePattern = .ok .errorMark :=
  ⟨by decide,
    solve_unsatisfiable_mirror_is_sentinel nilFind exampleRack examplePattern
      (by decide) (by decide)
      ⟨0, 2, by decide, by decide, by decide, by decide, by decide⟩⟩

/-- Helper: traversal positions are below 5. -/
theorem mem_gridPositions_lt (p : Nat × Nat) (h : p ∈ gridPositions) :
    p.1 < 5 ∧ p.2 < 5 := by
  unfold gridPositions at h
  simp only [List.mem_flatMap, List.mem_map, List.mem_range] at h
  obtain ⟨r, hr, c, hc, rfl⟩ := h
  exact ⟨hr, hc⟩

/-- Helper: an alphabetic cell is not the wildcard. -/
theorem isAlpha_ne_dash (c : Char) (h : c.isAlpha = true) : c ≠ '-' := by
  intro hc; subst hc; simp at h

/-- Helper: the `check_diagonal` loop never changes a cell that is
already filled (all its writes target `'-'` cells). -/
theorem checkDiagonalGo_keeps_filled :
    ∀ (ps : List (Nat × Nat)) (g : Grid) (ls : List Char) (x y : Nat),
      getCell g x y ≠ '-' →
      getCell (checkDiagonalGo ps g ls).1 x y = getCell g x y := by
  intro ps
  induction ps with
  | nil => intro g ls x y _; rfl
  | cons p ps ih =>
    obtain ⟨a, b⟩ := p
    intro g ls x y hxy
    unfold checkDiagonalGo
    by_cases hb1 : ((getCell g a b).isAlpha && (getCell g b a == '-')) = true
    · rw [if_pos hb1]
      have hmir : getCell g b a = '-' := by
        have h2 := (Bool.and_eq_true _ _ |>.mp hb1).2
        exact beq_iff_eq.mp h2
      have hframe : getCell (setCell g b a (getCell g a b)) x y = getCell g x y := by
        refine getCell_setCell_ne g b a x y _ ?_
        by_contra hcon
        push_neg at hcon
        exact hxy (by rw [hcon.1, hcon.2, hmir])
      cases hrem : pyRemove ls (getCell g a b) with
      | ok ls' =>
        rw [ih _ ls' x y (by rw [hframe]; exact hxy)]
        exact hframe
      | error e => exact hframe
    · rw [if_neg hb1]
      by_cases hb2 : ((getCell g b a).isAlpha && (getCell g a b == '-')) = true
      · rw [if_pos hb2]
        have hmir : getCell g a b = '-' := by
          have h2 := (Bool.and_eq_true _ _ |>.mp hb2).2
          exact beq_iff_eq.mp h2
        have hframe : getCell (setCell g a b (getCell g b a)) x y = getCell g x y := by
          refine getCell_setCell_ne g a b x y _ ?_
          by_contra hcon
          push_neg at hcon
          exact hxy (by rw [hcon.1, hcon.2, hmir])
        cases hrem : pyRemove ls (getCell g b a) with
        | ok ls' =>
          rw [ih _ ls' x y (by rw [hframe]; exact hxy)]
          exact hframe
        | error e => exact hframe
      · rw [if_neg hb2]
        exact ih g ls x y hxy

/-- Helper: when some cell is filled while its mirror is empty, the
`check_diagonal` loop changes the grid (even when it aborts early on an
exhausted pool, the write preceding the failed removal has already
happened). -/
theorem checkDiagonalGo_ne :
    ∀ (ps : List (Nat × Nat)) (g : Grid) (ls : List Char),
      gridWF g → (∀ p ∈ ps, p.1 < 5 ∧ p.2 < 5) →
      (∃ r c, ((r, c) ∈ ps ∨ (c, r) ∈ ps) ∧
        (getCell g r c).isAlpha = true ∧ getCell g c r = '-') →
      (checkDiagonalGo ps g ls).1 ≠ g := by
  intro ps
  induction ps with
  | nil =>
    intro g ls _ _ hw
    obtain ⟨r, c, hmem, _, _⟩ := hw
    rcases hmem with h | h <;> simp at h
  | cons p ps ih =>
    obtain ⟨a, b⟩ := p
    intro g ls hWF hlt hw
    obtain ⟨hab, hba⟩ := hlt (a, b) (List.mem_cons_self _ _)
    have hset : ∀ x y (v : Char), x < 5 → y < 5 →
        getCell (setCell g x y v) x y = v := by
      intro x y v hx hy
      exact getCell_setCell_self g x y v (by rw [hWF.1]; exact hx)
        (by rw [hWF.2 x hx]; exact hy)
    unfold checkDiagonalGo
    by_cases hb1 : ((getCell g a b).isAlpha && (getCell g b a == '-')) = true
    · rw [if_pos hb1]
      have halpha : (getCell g a b).isAlpha = true := (Bool.and_eq_true _ _ |>.mp hb1).1
      have hmir : getCell g b a = '-' := beq_iff_eq.mp (Bool.and_eq_true _ _ |>.mp hb1).2
      have hcell : getCell (setCell g b a (getCell g a b)) b a = getCell g a b :=
        hset b a _ hba hab
      have hvne : getCell g a b ≠ '-' := isAlpha_ne_dash _ halpha
      cases hrem : pyRemove ls (getCell g a b) with
      | ok ls' =>
        intro hEq
        have hkeep := checkDiagonalGo_keeps_filled ps (setCell g b a (getCell g a b)) ls' b a
          (by rw [hcell]; exact hvne)
        rw [hEq, hcell] at hkeep
        exact hvne (by rw [← hkeep, hmir])
      | error e =>
        intro hEq
        have : getCell g b a = getCell g a b := by
          conv_lhs => rw [← hEq]
          exact hcell
        rw [hmir] at this
        exact hvne this.symm
    · rw [if_neg hb1]
      by_cases hb2 : ((getCell g b a).isAlpha && (getCell g a b == '-')) = true
      · rw [if_pos hb2]
        have halpha : (getCell g b a).isAlpha = true := (Bool.and_eq_true _ _ |>.mp hb2).1
        have hmir : getCell g a b = '-' := beq_iff_eq.mp (Bool.and_eq_true _ _ |>.mp hb2).2
        have hcell : getCell (setCell g a b (getCell g b a)) a b = getCell g b a :=
          hset a b _ hab hba
        have hvne : getCell g b a ≠ '-' := isAlpha_ne_dash _ halpha
        cases hrem : pyRemove ls (getCell g b a) with
        | ok ls' =>
          intro hEq
          have hkeep := checkDiagonalGo_keeps_filled ps (setCell g a b (getCell g b a)) ls' a b
            (by rw [hcell]; exact hvne)
          rw [hEq, hcell] at hkeep
          exact hvne (by rw [← hkeep, hmir])
        | error e =>
          intro hEq
          have : getCell g a b = getCell g b a := by
            conv_lhs => rw [← hEq]
            exact hcell
          rw [hmir] at this
          exact hvne this.symm
      · rw [if_neg hb2]
        obtain ⟨r, c, hmem, halpha, hmir⟩ := hw
        have hmem' : (r, c) ∈ ps ∨ (c, r) ∈ ps := by
          rcases hmem with h | h
          · rcases List.mem_cons.mp h with h | h
            · exfalso
              obtain ⟨ha, hb⟩ := Prod.mk.injEq r c a b ▸ h
              subst ha; subst hb
              exact hb1 (by rw [halpha, hmir]; rfl)
            · exact Or.inl h
          · rcases List.mem_cons.mp h with h | h
            · exfalso
              obtain ⟨ha, hb⟩ := Prod.mk.injEq c r a b ▸ h
              subst ha; subst hb
              exact hb2 (by rw [halpha, hmir]; rfl)
            · exact Or.inr h
        exact ih g ls hWF (fun q hq => hlt q (List.mem_cons_of_mem _ hq))
          ⟨r, c, hmem', halpha, hmir⟩

/-- Helper: reading a cell through the row references agrees with the
value-level grid. -/
theorem cellR_eq (rs : RowStore) (ids : List Nat) (r c : Nat)
    (hr : r < ids.length) :
    cellR rs ids r c = getCell (readGridR rs ids) r c := by
  have hr2 : r < (List.map (getRow rs) ids).length := by simpa using hr
  have hmap : (List.map (getRow rs) ids).getD r [] = getRow rs (ids.getD r 0) := by
    rw [List.getD_eq_getElem _ _ hr2, List.getElem_map, List.getD_eq_getElem _ _ hr]
  unfold cellR getCell readGridR
  rw [hmap]

/-- Helper: a write through the row references is a write of the
value-level grid, provided the references are distinct and in range. -/
theorem readGridR_writeR (rs : RowStore) (ids : List Nat) (r c : Nat) (v : Char)
    (hnd : ids.Nodup) (hr : r < ids.length) (hin : ∀ i ∈ ids, i < rs.length) :
    readGridR (writeR rs ids r c v) ids = setCell (readGridR rs ids) r c v := by
  have hj : ids.getD r 0 = ids[r] := List.getD_eq_getElem _ _ hr
  have hjlt : ids[r] < rs.length := hin _ (List.getElem_mem hr)
  apply List.ext_get?_iff.mpr
  intro n
  simp only [List.get?_eq_getElem?]
  unfold readGridR writeR setCell getRow
  rw [hj]
  rcases Nat.lt_or_ge n ids.length with hn | hn
  · simp only [List.getElem?_map, List.getElem?_eq_getElem hn, Option.map_some']
    by_cases hnr : n = r
    · subst hnr
      rw [List.getElem?_set_eq_of_lt _ (by simpa using hn)]
      rw [getD_set_self _ _ _ _ hjlt]
      have hmap : (List.map (fun i => rs.getD i []) ids).getD n [] = rs.getD ids[n] [] := by
        rw [List.getD_eq_getElem _ _ (by simpa using hn), List.getElem_map]
      rw [hmap]
    · rw [List.getElem?_set_ne (fun hc => hnr hc.symm)]
      simp only [List.getElem?_map, List.getElem?_eq_getElem hn, Option.map_some']
      have hne : ids[r] ≠ ids[n] := fun hc => hnr ((hnd.getElem_inj_iff.mp hc).symm)
      rw [getD_set_ne _ _ _ _ _ hne]
  · have h1 : (List.map (fun i =>
        (rs.set ids[r] ((rs.getD ids[r] []).set c v)).getD i []) ids)[n]? = none :=
      List.getElem?_eq_none (by simpa using hn)
    have h2 : ((List.map (fun i => rs.getD i []) ids).set r
        (((List.map (fun i => rs.getD i []) ids).getD r []).set c v))[n]? = none :=
      List.getElem?_eq_none (by rw [List.length_set]; simpa using hn)
    rw [h1, h2]

/-- Helper: writes through the row store keep its size. -/
theorem writeR_length (rs : RowStore) (ids : List Nat) (r c : Nat) (v : Char) :
    (writeR rs ids r c v).length = rs.length := List.length_set _ _ _

/-- Helper: the row-store `check_diagonal` loop simulates the
value-level one: what the caller's row references read afterwards is
exactly the value-level result, and the letter lists agree. -/
theorem checkDiagonalRGo_sim :
    ∀ (ps : List (Nat × Nat)) (rs : RowStore) (ids : List Nat) (ls : List Char),
      ids.Nodup → ids.length = 5 → (∀ i ∈ ids, i < rs.length) →
      (∀ p ∈ ps, p.1 < 5 ∧ p.2 < 5) →
      readGridR (checkDiagonalRGo ps rs ids ls).1 ids =
          (checkDiagonalGo ps (readGridR rs ids) ls).1 ∧
        (checkDiagonalRGo ps rs ids ls).2 =
          (checkDiagonalGo ps (readGridR rs ids) ls).2 := by
  intro ps
  induction ps with
  | nil => intro rs ids ls _ _ _ _; exact ⟨rfl, rfl⟩
  | cons p ps ih =>
    obtain ⟨a, b⟩ := p
    intro rs ids ls hnd hlen hin hlt
    obtain ⟨hab, hba⟩ := hlt (a, b) (List.mem_cons_self _ _)
    have hab' : a < ids.length := by rw [hlen]; exact hab
    have hba' : b < ids.length := by rw [hlen]; exact hba
    have hc1 : cellR rs ids a b = getCell (readGridR rs ids) a b := cellR_eq rs ids a b hab'
    have hc2 : cellR rs ids b a = getCell (readGridR rs ids) b a := cellR_eq rs ids b a hba'
    have htail : ∀ q ∈ ps, q.1 < 5 ∧ q.2 < 5 := fun q hq => hlt q (List.mem_cons_of_mem _ hq)
    unfold checkDiagonalRGo checkDiagonalGo
    rw [hc1, hc2]
    by_cases hb1 : ((getCell (readGridR rs ids) a b).isAlpha &&
        (getCell (readGridR rs ids) b a == '-')) = true
    · rw [if_pos hb1, if_pos hb1]
      have hwrite := readGridR_writeR rs ids b a (getCell (readGridR rs ids) a b) hnd hba' hin
      cases hrem : pyRemove ls (getCell (readGridR rs ids) a b) with
      | ok ls' =>
        have := ih (writeR rs ids b a (getCell (readGridR rs ids) a b)) ids ls' hnd hlen
          (by rw [writeR_length]; exact hin) htail
        rw [hwrite] at this
        exact this
      | error e => exact ⟨hwrite, rfl⟩
    · rw [if_neg hb1, if_neg hb1]
      by_cases hb2 : ((getCell (readGridR rs ids) b a).isAlpha &&
          (getCell (readGridR rs ids) a b == '-')) = true
      · rw [if_pos hb2, if_pos hb2]
        have hwrite := readGridR_writeR rs ids a b (getCell (readGridR rs ids) b a) hnd hab' hin
        cases hrem : pyRemove ls (getCell (readGridR rs ids) b a) with
        | ok ls' =>
          have := ih (writeR rs ids a b (getCell (readGridR rs ids) b a)) ids ls' hnd hlen
            (by rw [writeR_length]; exact hin) htail
          rw [hwrite] at this
          exact this
        | error e => exact ⟨hwrite, rfl⟩
      · rw [if_neg hb2, if_neg hb2]
        exact ih rs ids ls hnd hlen hin htail

/-- C10 (confirmed): `check_diagonal` copies only the outer list of the
grid (`grid = grid[:]`), so its mirrored-letter writes go into the row
objects shared with the stored `start_grid`: the grid it returns is the
same list of row references, and after the call — the first thing
`Solver.try_grid` does inside `solve` — the caller's `start_grid` reads
back as the diagonal-normalised grid, no longer as the originally
supplied pattern (whenever some filled cell had an empty mirror
partner). -/
theorem check_diagonal_mutates_start_grid (rs : RowStore) (ids : List Nat)
    (letters : List Char)
    (hnd : ids.Nodup) (hlen : ids.length = 5)
    (hin : ∀ i ∈ ids, i < rs.length)
    (hWF : gridWF (readGridR rs ids))
    (hfill : ∃ r c, r < 5 ∧ c < 5 ∧
      (getCell (readGridR rs ids) r c).isAlpha = true ∧
      getCell (readGridR rs ids) c r = '-') :
    (checkDiagonalR rs ids letters).2.1 = ids ∧
    readGridR (checkDiagonalR rs ids letters).1 ids =
      (checkDiagonal (readGridR rs ids) letters).1 ∧
    readGridR (checkDiagonalR rs ids letters).1 ids ≠ readGridR rs ids := by
  have hsim := checkDiagonalRGo_sim gridPositions rs ids letters hnd hlen hin
    (fun p hp => mem_gridPositions_lt p hp)
  refine ⟨rfl, hsim.1, ?_⟩
  rw [show (checkDiagonalR rs ids letters).1 = (checkDiagonalRGo gridPositions rs ids letters).1
    from rfl]
  rw [hsim.1]
  obtain ⟨r, c, hr, hc, halpha, hmir⟩ := hfill
  exact checkDiagonalGo_ne gridPositions (readGridR rs ids) letters hWF
    (fun p hp => mem_gridPositions_lt p hp)
    ⟨r, c, Or.inl (mem_gridPositions r c hr hc), halpha, hmir⟩

/-- Witness for C10's theorem: the example pattern stored as five rows
referenced by the grid. -/
theorem check_diagonal_mutates_start_grid_witness :
    (([0, 1, 2, 3, 4] : List Nat).Nodup ∧
      ([0, 1, 2, 3, 4] : List Nat).length = 5 ∧
      (∀ i ∈ ([0, 1, 2, 3, 4] : List Nat), i < examplePattern.length) ∧
      gridWF (readGridR examplePattern [0, 1, 2, 3, 4]) ∧
      (getCell (readGridR examplePattern [0, 1, 2, 3, 4]) 0 2).isAlpha = true ∧
      getCell (readGridR examplePattern [0, 1, 2, 3, 4]) 2 0 = '-') ∧
    ((checkDiagonalR examplePattern [0, 1, 2, 3, 4] ['a', 'b']).2.1 = [0, 1, 2, 3, 4] ∧
      readGridR (checkDiagonalR examplePattern [0, 1, 2, 3, 4] ['a', 'b']).1 [0, 1, 2, 3, 4] =
        (checkDiagonal (readGridR examplePattern [0, 1, 2, 3, 4]) ['a', 'b']).1 ∧
      readGridR (checkDiagonalR examplePattern [0, 1, 2, 3, 4] ['a', 'b']).1 [0, 1, 2, 3, 4] ≠
        readGridR examplePattern [0, 1, 2, 3, 4]) :=
  ⟨⟨by decide, by decide, by decide,
      ⟨by decide, by decide⟩, by decide, by decide⟩,
    check_diagonal_mutates_start_grid examplePattern [0, 1, 2, 3, 4] ['a', 'b']
      (by decide) (by decide) (by decide) ⟨by decide, by decide⟩
      ⟨0, 2, by decide, by decide, by decide, by decide⟩⟩

/-- Helper: writes preserve the 5x5 shape. -/
theorem gridWF_setCell (g : Grid) (r c : Nat) (v : Char) (h : gridWF g) :
    gridWF (setCell g r c v) := by
  constructor
  · unfold setCell; rw [List.length_set]; exact h.1
  · intro i hi
    unfold setCell
    by_cases hir : i = r
    · subst hir
      rw [getD_set_self _ _ _ _ (by rw [h.1]; exact hi), List.length_set]
      exact h.2 i hi
    · rw [getD_set_ne _ _ _ _ _ (fun hc => hir hc.symm)]
      exact h.2 i hi

/-- Helper: a write at an in-range cell of a 5x5 grid is read back. -/
theorem setCell_read5 (g : Grid) (r c : Nat) (v : Char) (h : gridWF g)
    (hr : r < 5) (hc : c < 5) :
    getCell (setCell g r c v) r c = v :=
  getCell_setCell_self g r c v (by rw [h.1]; exact hr) (by rw [h.2 r hr]; exact hc)

/-- Helper: the reset loop preserves the 5x5 shape. -/
theorem gridWF_resetCells (initGrid : Grid) (row : Nat) (g : Grid) (h : gridWF g) :
    gridWF (resetCells initGrid row g) := by
  unfold resetCells
  generalize gridPositions = ps
  induction ps generalizing g with
  | nil => exact h
  | cons p ps ih =>
    rw [List.foldl_cons]
    by_cases hp : (row ≤ p.1 && row ≤ p.2) = true
    · rw [if_pos hp]
      exact ih _ (gridWF_setCell _ _ _ _ h)
    · rw [if_neg hp]
      exact ih _ h

/-- Helper: the reset loop never touches a cell with an index below
`row`. -/
theorem resetCells_frame (initGrid : Grid) (row : Nat) (g : Grid) (a b : Nat)
    (hab : a < row ∨ b < row) :
    getCell (resetCells initGrid row g) a b = getCell g a b := by
  unfold resetCells
  generalize gridPositions = ps
  induction ps generalizing g with
  | nil => rfl
  | cons p ps ih =>
    rw [List.foldl_cons]
    by_cases hp : (row ≤ p.1 && row ≤ p.2) = true
    · rw [if_pos hp]
      rw [ih _]
      refine getCell_setCell_ne g p.1 p.2 a b _ ?_
      obtain ⟨h1, h2⟩ := Bool.and_eq_true _ _ |>.mp hp
      rcases hab with h | h
      · exact Or.inl (fun hc => Nat.lt_irrefl a
          (Nat.lt_of_lt_of_le h (by rw [← hc] at h1; exact of_decide_eq_true h1)))
      · exact Or.inr (fun hc => Nat.lt_irrefl b
          (Nat.lt_of_lt_of_le h (by rw [← hc] at h2; exact of_decide_eq_true h2)))
    · rw [if_neg hp]
      exact ih g

/-- Helper: `set_word` leaves cells outside row and column `row`
unchanged. -/
theorem setWordGo_frame :
    ∀ (is : List Nat) (word : List Char) (row : Nat) (sol sol' : Grid),
      setWordGo is word row sol = .ok sol' →
      ∀ a b, (∀ i ∈ is, ¬(a = row ∧ b = i) ∧ ¬(a = i ∧ b = row)) →
      getCell sol' a b = getCell sol a b := by
  intro is
  induction is with
  | nil =>
    intro word row sol sol' h a b _
    injection h with h
    rw [← h]
  | cons i is ih =>
    intro word row sol sol' h a b hfr
    unfold setWordGo at h
    cases hpi : pyIndex word i with
    | ok wi =>
      rw [hpi] at h
      have hstep := ih word row _ sol' h a b (fun j hj => hfr j (List.mem_cons_of_mem _ hj))
      rw [hstep]
      obtain ⟨h1, h2⟩ := hfr i (List.mem_cons_self _ _)
      rw [getCell_setCell_ne _ _ _ _ _ _ (by
        by_contra hcon; push_neg at hcon; exact h2 ⟨hcon.1, hcon.2⟩)]
      rw [getCell_setCell_ne _ _ _ _ _ _ (by
        by_contra hcon; push_neg at hcon; exact h1 ⟨hcon.1, hcon.2⟩)]
    | error e => rw [hpi] at h; cases h

/-- Helper: `set_word` writes the word into row `row` and column `row`,
and keeps the 5x5 shape. -/
theorem setWordGo_writes :
    ∀ (is : List Nat) (word : List Char) (row : Nat) (sol sol' : Grid),
      setWordGo is word row sol = .ok sol' →
      is.Nodup → gridWF sol → (∀ i ∈ is, i < 5) → row < 5 →
      gridWF sol' ∧
        ∀ i ∈ is, ∃ wi, pyIndex word i = .ok wi ∧
          getCell sol' row i = wi ∧ getCell sol' i row = wi := by
  intro is
  induction is with
  | nil =>
    intro word row sol sol' h _ hWF _ _
    injection h with h
    exact ⟨h ▸ hWF, by intro i hi; simp at hi⟩
  | cons i is ih =>
    intro word row sol sol' h hnd hWF hlt hrow
    unfold setWordGo at h
    cases hpi : pyIndex word i with
    | error e => rw [hpi] at h; cases h
    | ok wi =>
      rw [hpi] at h
      have hi5 : i < 5 := hlt i (List.mem_cons_self _ _)
      have hWF1 : gridWF (setCell (setCell sol row i wi) i row wi) :=
        gridWF_setCell _ _ _ _ (gridWF_setCell _ _ _ _ hWF)
      obtain ⟨hWF', htail⟩ := ih word row _ sol' h (List.nodup_cons.mp hnd).2 hWF1
        (fun j hj => hlt j (List.mem_cons_of_mem _ hj)) hrow
      refine ⟨hWF', ?_⟩
      intro j hj
      rcases List.mem_cons.mp hj with hj | hj
      · subst hj
        refine ⟨wi, hpi, ?_, ?_⟩
        · have hfr : getCell sol' row j =
              getCell (setCell (setCell sol row j wi) j row wi) row j := by
            refine setWordGo_frame is word row _ sol' h row j ?_
            intro k hk
            have hki : k ≠ j := fun hc => (List.nodup_cons.mp hnd).1 (hc ▸ hk)
            constructor
            · intro hcon; exact hki hcon.2.symm
            · intro hcon
              exact hki (by rw [← hcon.1, hcon.2])
          rw [hfr]
          by_cases hri : row = j
          · subst hri
            rw [setCell_read5 _ _ _ _ (gridWF_setCell _ _ _ _ hWF) hrow hrow]
          · rw [getCell_setCell_ne _ _ _ _ _ _ (Or.inl hri)]
            rw [setCell_read5 _ _ _ _ hWF hrow hi5]
        · have hfr : getCell sol' j row =
              getCell (setCell (setCell sol row j wi) j row wi) j row := by
            refine setWordGo_frame is word row _ sol' h j row ?_
            intro k hk
            have hki : k ≠ j := fun hc => (List.nodup_cons.mp hnd).1 (hc ▸ hk)
            constructor
            · intro hcon
              exact hki (by rw [← hcon.2, hcon.1])
            · intro hcon; exact hki hcon.1.symm
          rw [hfr]
          rw [setCell_read5 _ _ _ _ (gridWF_setCell _ _ _ _ hWF) hi5 hrow]
      · exact htail j hj

/-- Helper: the pattern-filtering comprehension only keeps words from
its input list. -/
theorem filterPattM_subset :
    ∀ (ws res : List (List Char)) (row : Nat) (letters patt : List Char),
      filterPattM row letters patt ws = .ok res → ∀ w ∈ res, w ∈ ws := by
  intro ws
  induction ws with
  | nil =>
    intro res row letters patt h w hw
    injection h with h
    rw [← h] at hw
    simp at hw
  | cons x ws ih =>
    intro res row letters patt h w hw
    unfold filterPattM at h
    cases hcp : checkPattern row x letters patt with
    | error e => rw [hcp] at h; cases h
    | ok b =>
      rw [hcp] at h
      cases hrest : filterPattM row letters patt ws with
      | error e => rw [hrest] at h; cases h
      | ok rest =>
        rw [hrest] at h
        injection h with h
        rw [← h] at hw
        by_cases hb : b = true
        · subst hb
          simp only [if_pos] at hw
          rcases List.mem_cons.mp hw with hw | hw
          · exact hw ▸ List.mem_cons_self _ _
          · exact List.mem_cons_of_mem _ (ih rest row letters patt hrest w hw)
        · rw [Bool.eq_false_iff.mpr hb] at hw
          simp only [if_neg Bool.false_ne_true] at hw
          exact List.mem_cons_of_mem _ (ih rest row letters patt hrest w hw)

/-- Helper: a word passing `check_singles` has its single-occurrence
letters only at position `row`. -/
theorem checkSingles_spec (singles : List Char) (row : Nat) (word : List Char)
    (h : checkSingles singles row word = true) :
    ∀ i wi, pyIndex word i = .ok wi → wi ∈ singles → i = row := by
  intro i wi hpi hmem
  have hget : word.get? i = some wi := by
    unfold pyIndex at hpi
    cases hg : word.get? i with
    | some c => rw [hg] at hpi; injection hpi with hpi; rw [hpi]
    | none => rw [hg] at hpi; cases hpi
  have henum : (i, wi) ∈ word.enum := by
    rw [List.mem_enum_iff_getElem?]
    rw [← List.get?_eq_getElem?]
    exact hget
  have := (List.all_eq_true.mp h) (i, wi) henum
  simp only [Bool.not_eq_true'] at this
  by_contra hne
  rw [List.contains_eq_any_beq] at this
  have hc : word.enum.all (fun pc => !(singles.contains pc.2 && pc.1 != row)) = true := h
  have h2 := (List.all_eq_true.mp hc) (i, wi) henum
  have hcontains : singles.contains wi = true := by
    rw [List.contains_eq_any_beq, List.any_eq_true]
    exact ⟨wi, hmem, by simp⟩
  rw [Bool.not_eq_true'] at h2
  rw [Bool.and_eq_false_iff] at h2
  rcases h2 with h2 | h2
  · rw [hcontains] at h2; cases h2
  · have : (decide ¬(i = row)) = false := by simpa using h2
    rw [decide_eq_false_iff_not] at this
    push_neg at this
    exact hne this

/-- Helper: a grid passing `check_muddle` has no wildcard cell. -/
theorem checkMuddle_no_dash (g : Grid) (h : checkMuddle g = true) :
    ∀ row ∈ g, '-' ∉ row := by
  intro row hrow hmem
  unfold checkMuddle at h
  have hany : g.any (fun r => r.contains '-') = true := by
    rw [List.any_eq_true]
    exact ⟨row, hrow, by
      rw [List.contains_eq_any_beq, List.any_eq_true]
      exact ⟨'-', hmem, by simp⟩⟩
  rw [if_pos hany] at h
  cases h

/-- Helper: `bind` on a successful `Except`. -/
theorem exceptBind_ok {ε α β : Type _} (a : α) (f : α → Except ε β) :
    (Except.ok a >>= f) = f a := rfl

/-- Helper: `bind` on a failed `Except`. -/
theorem exceptBind_error {ε α β : Type _} (e : ε) (f : α → Except ε β) :
    ((Except.error e : Except ε α) >>= f) = .error e := rfl

/-- Helper: committed-region symmetry is antitone in the row index. -/
theorem symBelow_mono (row : Nat) (g : Grid) (h : symBelow (row + 1) g) :
    symBelow row g := by
  intro a b ha hb hlt
  refine h a b ha hb ?_
  rcases hlt with hlt | hlt
  · exact Or.inl (Nat.lt_succ_of_lt hlt)
  · exact Or.inr (Nat.lt_succ_of_lt hlt)

/-- Helper: the committed-region singles property is antitone. -/
theorem noSinglesBelow_mono (singles : List Char) (row : Nat) (g : Grid)
    (h : noSinglesBelow singles (row + 1) g) :
    noSinglesBelow singles row g := by
  intro a b ha hb hne hlt
  refine h a b ha hb hne ?_
  rcases hlt with hlt | hlt
  · exact Or.inl (Nat.lt_succ_of_lt hlt)
  · exact Or.inr (Nat.lt_succ_of_lt hlt)

/-- Helper: the candidate loop of `traverse` preserves the committed
invariants and only records solution grids with the `SolsOK`
properties, assuming the recursive call (`tr`) does so at `row + 1`. -/
theorem traverseLoop_inv
    (tr : Nat → List Char → Grid → Except PyErr (Grid × List Grid))
    (initGrid : Grid) (singles : List Char) (row : Nat) (letters patt : List Char)
    (hWFi : gridWF initGrid) (hrow : row < 5)
    (Htr : ∀ ls2 sol out, gridWF sol → symBelow (row + 1) sol →
      noSinglesBelow singles (row + 1) sol →
      tr (row + 1) ls2 sol = .ok out →
      (gridWF out.1 ∧ symBelow (row + 1) out.1 ∧
        noSinglesBelow singles (row + 1) out.1) ∧ SolsOK singles out.2) :
    ∀ (ws : List (List Char)) (sol : Grid) (out : Grid × List Grid),
      (∀ w ∈ ws, checkSingles singles row w = true) →
      gridWF sol → symBelow row sol → noSinglesBelow singles row sol →
      traverseLoop tr initGrid row letters patt ws sol = .ok out →
      (gridWF out.1 ∧ symBelow row out.1 ∧ noSinglesBelow singles row out.1) ∧
        SolsOK singles out.2 := by
  intro ws
  induction ws with
  | nil =>
    intro sol out _ hWF hsym hsing h
    injection h with h
    rw [← h]
    exact ⟨⟨hWF, hsym, hsing⟩, by intro g hg; simp at hg⟩
  | cons word ws ih =>
    intro sol out hcs hWF hsym hsing h
    unfold traverseLoop at h
    simp only [] at h
    have hWF0 : gridWF (if row == 0 then initGrid else sol) := by
      by_cases h0 : (row == 0) = true
      · rw [if_pos h0]; exact hWFi
      · rw [if_neg h0]; exact hWF
    have hsym0 : symBelow row (if row == 0 then initGrid else sol) := by
      by_cases h0 : (row == 0) = true
      · rw [if_pos h0]
        have hz : row = 0 := (beq_iff_eq.mp h0)
        subst hz
        intro a b _ _ hlt
        rcases hlt with hlt | hlt <;> exact absurd hlt (Nat.not_lt_zero _)
      · rw [if_neg h0]; exact hsym
    have hsing0 : noSinglesBelow singles row (if row == 0 then initGrid else sol) := by
      by_cases h0 : (row == 0) = true
      · rw [if_pos h0]
        have hz : row = 0 := (beq_iff_eq.mp h0)
        subst hz
        intro a b _ _ _ hlt
        rcases hlt with hlt | hlt <;> exact absurd hlt (Nat.not_lt_zero _)
      · rw [if_neg h0]; exact hsing
    cases hsw : setWord word row (if row == 0 then initGrid else sol) with
    | error e => simp only [hsw, exceptBind_error] at h; cases h
    | ok sol1 =>
      simp only [hsw, exceptBind_ok] at h
      obtain ⟨hWF1, hwrites⟩ := setWordGo_writes (List.range 5) word row _ sol1 hsw
        (List.nodup_range 5) hWF0 (fun i hi => List.mem_range.mp hi) hrow
      have hframe : ∀ a b, a ≠ row → b ≠ row →
          getCell sol1 a b = getCell (if row == 0 then initGrid else sol) a b := by
        intro a b ha hb
        refine setWordGo_frame (List.range 5) word row _ sol1 hsw a b ?_
        intro i _
        exact ⟨fun hc => ha hc.1, fun hc => hb hc.2⟩
      have hsym1 : symBelow (row + 1) sol1 := by
        intro a b ha hb hlt
        by_cases har : a = row
        · by_cases hbr : b = row
          · rw [har, hbr]
          · obtain ⟨wb, _, hwb1, hwb2⟩ := hwrites b (List.mem_range.mpr hb)
            rw [har, hwb1, hwb2]
        · by_cases hbr : b = row
          · obtain ⟨wa, _, hwa1, hwa2⟩ := hwrites a (List.mem_range.mpr ha)
            rw [hbr, hwa2, hwa1]
          · rw [hframe a b har hbr, hframe b a hbr har]
            refine hsym0 a b ha hb ?_
            rcases hlt with hlt | hlt
            · exact Or.inl (Nat.lt_of_le_of_ne (Nat.le_of_lt_succ hlt) har)
            · exact Or.inr (Nat.lt_of_le_of_ne (Nat.le_of_lt_succ hlt) hbr)
      have hsing1 : noSinglesBelow singles (row + 1) sol1 := by
        intro a b ha hb hne hlt
        by_cases har : a = row
        · obtain ⟨wb, hpib, hwb1, _⟩ := hwrites b (List.mem_range.mpr hb)
          rw [har, hwb1]
          intro hmem
          exact hne (har.trans (checkSingles_spec singles row word
            (hcs word (List.mem_cons_self _ _)) b wb hpib hmem).symm)
        · by_cases hbr : b = row
          · obtain ⟨wa, hpia, _, hwa2⟩ := hwrites a (List.mem_range.mpr ha)
            rw [hbr, hwa2]
            intro hmem
            exact hne ((checkSingles_spec singles row word
              (hcs word (List.mem_cons_self _ _)) a wa hpia hmem).trans hbr.symm)
          · rw [hframe a b har hbr]
            refine hsing0 a b ha hb hne ?_
            rcases hlt with hlt | hlt
            · exact Or.inl (Nat.lt_of_le_of_ne (Nat.le_of_lt_succ hlt) har)
            · exact Or.inr (Nat.lt_of_le_of_ne (Nat.le_of_lt_succ hlt) hbr)
      cases hgl : getLetters word letters row patt with
      | error e => simp only [hgl, exceptBind_error] at h; cases h
      | ok nl =>
        simp only [hgl, exceptBind_ok] at h
        cases htr : tr (row + 1) nl sol1 with
        | error e => simp only [htr, exceptBind_error] at h; cases h
        | ok p1 =>
          simp only [htr, exceptBind_ok] at h
          obtain ⟨⟨hWF2, hsym2, hsing2⟩, hsols1⟩ := Htr nl sol1 p1 hWF1 hsym1 hsing1 htr
          cases hlp : traverseLoop tr initGrid row letters patt ws p1.1 with
          | error e => simp only [hlp, exceptBind_error] at h; cases h
          | ok p2 =>
            simp only [hlp, exceptBind_ok] at h
            injection h with h
            obtain ⟨⟨hWF3, hsym3, hsing3⟩, hsols2⟩ := ih p1.1 p2
              (fun w hw => hcs w (List.mem_cons_of_mem _ hw))
              hWF2 (symBelow_mono row p1.1 hsym2)
              (noSinglesBelow_mono singles row p1.1 hsing2) hlp
            rw [← h]
            refine ⟨⟨hWF3, hsym3, hsing3⟩, ?_⟩
            intro g hg
            rcases List.mem_append.mp hg with hg | hg
            · exact hsols1 g hg
            · exact hsols2 g hg

/-- Helper: the whole recursive search preserves the committed
invariants and only appends `SolsOK` grids. -/
theorem traverse_inv (find : FindOracle) (initGrid : Grid) (singles : List Char)
    (hWFi : gridWF initGrid) :
    ∀ (fuel row : Nat) (letters : List Char) (sol : Grid) (out : Grid × List Grid),
      gridWF sol → symBelow row sol → noSinglesBelow singles row sol →
      traverse find initGrid singles fuel row letters sol = .ok out →
      (gridWF out.1 ∧ symBelow row out.1 ∧ noSinglesBelow singles row out.1) ∧
        SolsOK singles out.2 := by
  intro fuel
  induction fuel with
  | zero => intro row letters sol out _ _ _ h; cases h
  | succ fuel ih =>
    intro row letters sol out hWF hsym hsing h
    unfold traverse at h
    by_cases hbase : (decide (row > 4) && checkMuddle sol) = true
    · rw [if_pos hbase] at h
      injection h with h
      rw [← h]
      have hrow5 : 4 < row := of_decide_eq_true (Bool.and_eq_true _ _ |>.mp hbase).1
      have hmud : checkMuddle sol = true := (Bool.and_eq_true _ _ |>.mp hbase).2
      have h5le : 5 ≤ row := Nat.succ_le_of_lt hrow5
      refine ⟨⟨hWF, hsym, hsing⟩, ?_⟩
      intro g hg
      rcases List.mem_cons.mp hg with hg | hg
      · subst hg
        refine ⟨?_, checkMuddle_no_dash _ hmud, ?_⟩
        · intro a b ha hb
          exact hsym a b ha hb (Or.inl (Nat.lt_of_lt_of_le ha h5le))
        · intro a b ha hb hne
          exact hsing a b ha hb hne (Or.inl (Nat.lt_of_lt_of_le ha h5le))
      · simp at hg
    · rw [if_neg hbase] at h
      simp only [] at h
      have hWFr : gridWF (resetCells initGrid row sol) := gridWF_resetCells _ _ _ hWF
      have hsymr : symBelow row (resetCells initGrid row sol) := by
        intro a b ha hb hlt
        rw [resetCells_frame _ _ _ _ _ hlt, resetCells_frame _ _ _ _ _ (Or.symm hlt)]
        exact hsym a b ha hb hlt
      have hsingr : noSinglesBelow singles row (resetCells initGrid row sol) := by
        intro a b ha hb hne hlt
        rw [resetCells_frame _ _ _ _ _ hlt]
        exact hsing a b ha hb hne hlt
      cases hgp : getPattern row (resetCells initGrid row sol) with
      | error e => simp only [hgp, exceptBind_error] at h; cases h
      | ok patt =>
        simp only [hgp, exceptBind_ok] at h
        have hrow : row < 5 := by
          unfold getPattern at hgp
          cases hg2 : (resetCells initGrid row sol).get? row with
          | some rr =>
            obtain ⟨hlt2, _⟩ := List.get?_eq_some.mp hg2
            rw [hWFr.1] at hlt2
            exact hlt2
          | none => rw [hg2] at hgp; cases hgp
        cases hfind : find letters patt with
        | error e => simp only [hfind, exceptBind_error] at h; cases h
        | ok possibles =>
          simp only [hfind, exceptBind_ok] at h
          cases hfp : filterPattM row letters patt
              (possibles.filter (checkSingles singles row)) with
          | error e => simp only [hfp, exceptBind_error] at h; cases h
          | ok ps3 =>
            simp only [hfp, exceptBind_ok] at h
            refine traverseLoop_inv (traverse find initGrid singles fuel) initGrid
              singles row letters patt hWFi hrow ?_ ps3 _ out ?_ hWFr hsymr hsingr h
            · intro ls2 sol2 out2 hW hs hn hok
              exact ih (row + 1) ls2 sol2 out2 hW hs hn hok
            · intro w hw
              exact List.of_mem_filter
                (filterPattM_subset _ _ _ _ _ hfp w hw)

/-- Helper: the lower-cased start grid of a 5x5 problem is
well-formed. -/
theorem gridWF_startGridOf (patterns : List (List Char))
    (hp : patterns.length = 5) (hrows : ∀ p ∈ patterns, p.length = 5) :
    gridWF (startGridOf patterns) := by
  constructor
  · unfold startGridOf; simpa using hp
  · intro i hi
    unfold startGridOf
    have hi' : i < (patterns.map (fun p => p.map Char.toLower)).length := by
      simpa [hp] using hi
    rw [List.getD_eq_getElem _ _ hi', List.getElem_map, List.length_map]
    exact hrows _ (List.getElem_mem _)

/-- Helper: the `check_diagonal` loop preserves the 5x5 shape. -/
theorem gridWF_checkDiagonalGo :
    ∀ (ps : List (Nat × Nat)) (g : Grid) (ls : List Char),
      gridWF g → gridWF (checkDiagonalGo ps g ls).1 := by
  intro ps
  induction ps with
  | nil => intro g ls h; exact h
  | cons p ps ih =>
    obtain ⟨a, b⟩ := p
    intro g ls h
    unfold checkDiagonalGo
    by_cases hb1 : ((getCell g a b).isAlpha && (getCell g b a == '-')) = true
    · rw [if_pos hb1]
      cases hrem : pyRemove ls (getCell g a b) with
      | ok ls' => exact ih _ ls' (gridWF_setCell _ _ _ _ h)
      | error e => exact gridWF_setCell _ _ _ _ h
    · rw [if_neg hb1]
      by_cases hb2 : ((getCell g b a).isAlpha && (getCell g a b == '-')) = true
      · rw [if_pos hb2]
        cases hrem : pyRemove ls (getCell g b a) with
        | ok ls' => exact ih _ ls' (gridWF_setCell _ _ _ _ h)
        | error e => exact gridWF_setCell _ _ _ _ h
      · rw [if_neg hb2]
        exact ih g ls h

/-- C1 (confirmed): for every 5x5 problem, every grid that `solve`
returns in its solutions list is mirror-symmetric
(`grid[r][c] == grid[c][r]` for all `r, c` in `0..4`) and contains no
wildcard `'-'` cell.  Symmetry is forced by `set_word` writing each
candidate into both its row and its mirrored column; absence of
wildcards by the `check_muddle` guard before a grid is recorded. -/
theorem solve_solutions_symmetric_no_wildcard (find : FindOracle)
    (rack patterns : List (List Char)) (gs : List Grid)
    (hp : patterns.length = 5) (hrows : ∀ p ∈ patterns, p.length = 5)
    (h : solveModel find rack patterns = .ok (.solutions gs)) :
    ∀ g ∈ gs,
      (∀ r c, r < 5 → c < 5 → getCell g r c = getCell g c r) ∧
      (∀ row ∈ g, '-' ∉ row) := by
  unfold solveModel at h
  simp only [] at h
  by_cases hemp : (checkDiagonal (startGridOf patterns)
      (poolAfterUsed rack patterns)).2.isEmpty = true
  · rw [if_pos hemp] at h
    injection h with h
    cases h
  · rw [if_neg hemp] at h
    have hWFcd : gridWF (checkDiagonal (startGridOf patterns)
        (poolAfterUsed rack patterns)).1 :=
      gridWF_checkDiagonalGo _ _ _ (gridWF_startGridOf patterns hp hrows)
    cases htr : traverse find
        (checkDiagonal (startGridOf patterns) (poolAfterUsed rack patterns)).1
        (singlesOf (rackLetters rack))
        ((checkDiagonal (startGridOf patterns) (poolAfterUsed rack patterns)).1.length + 2)
        0 (checkDiagonal (startGridOf patterns) (poolAfterUsed rack patterns)).2
        (checkDiagonal (startGridOf patterns) (poolAfterUsed rack patterns)).1 with
    | error e => simp only [htr, exceptBind_error] at h; cases h
    | ok p =>
      simp only [htr, exceptBind_ok] at h
      injection h with h
      injection h with h
      obtain ⟨_, hsols⟩ := traverse_inv find _ _ hWFcd _ 0 _ _ p hWFcd
        (by intro a b _ _ hlt; rcases hlt with hlt | hlt <;>
          exact absurd hlt (Nat.not_lt_zero _))
        (by intro a b _ _ _ hlt; rcases hlt with hlt | hlt <;>
          exact absurd hlt (Nat.not_lt_zero _))
        htr
      intro g hg
      obtain ⟨hsymg, hdash, _⟩ := hsols g (h ▸ hg)
      exact ⟨fun r c hr hc => hsymg r c hr hc, hdash⟩

/-- Witness for C1's theorem at a concrete input: the all-wildcard
pattern with an oracle finding no words; the search completes with an
empty solutions list and every hypothesis is discharged concretely. -/
theorem solve_solutions_symmetric_no_wildcard_witness :
    (emptyPattern.length = 5 ∧ (∀ p ∈ emptyPattern, p.length = 5) ∧
      solveModel nilFind exampleRack emptyPattern = .ok (.solutions [])) ∧
    (∀ g ∈ ([] : List Grid),
      (∀ r c, r < 5 → c < 5 → getCell g r c = getCell g c r) ∧
      (∀ row ∈ g, '-' ∉ row)) :=
  ⟨⟨by decide, by decide, by decide⟩,
    solve_solutions_symmetric_no_wildcard nilFind exampleRack emptyPattern []
      (by decide) (by decide) (by decide)⟩

/-- Helper: a successful association lookup is a member. -/
theorem lookup_some_mem {β : Type _} :
    ∀ (l : List (Char × β)) (x : Char) (n : β), l.lookup x = some n → (x, n) ∈ l := by
  intro l
  induction l with
  | nil => intro x n h; cases h
  | cons p l ih =>
    intro x n h
    obtain ⟨k, b⟩ := p
    rw [List.lookup_cons] at h
    cases hbe : (x == k) with
    | true =>
      simp only [hbe] at h
      injection h with h
      rw [beq_iff_eq.mp hbe, ← h]
      exact List.mem_cons_self _ _
    | false =>
      simp only [hbe] at h
      exact List.mem_cons_of_mem _ (ih x n h)

/-- Helper: one step of the occurrence-table update. -/
theorem occUpsert_lookup :
    ∀ (occ : List (Char × Nat)) (c x : Char),
      (occUpsert occ c).lookup x =
        if x = c then some (((occ.lookup x).getD 0) + 1) else occ.lookup x := by
  intro occ
  induction occ with
  | nil =>
    intro c x
    unfold occUpsert
    rw [List.lookup_cons]
    by_cases hx : x = c
    · simp only [beq_iff_eq.mpr hx, if_pos hx]
      rfl
    · simp only [Bool.of_not_eq_true (by simpa using hx : ¬(x == c) = true), if_neg hx]
  | cons p occ ih =>
    intro c x
    obtain ⟨d, n⟩ := p
    unfold occUpsert
    by_cases hdc : d = c
    · rw [if_pos hdc]
      rw [List.lookup_cons, List.lookup_cons]
      by_cases hxd : x = d
      · have hxc : x = c := hxd.trans hdc
        simp only [beq_iff_eq.mpr hxd, if_pos hxc]
        rfl
      · have hxc : ¬x = c := fun hc => hxd (hc.trans hdc.symm)
        simp only [Bool.of_not_eq_true (by simpa using hxd : ¬(x == d) = true), if_neg hxc]
    · rw [if_neg hdc]
      rw [List.lookup_cons, List.lookup_cons]
      by_cases hxd : x = d
      · have hxc : ¬x = c := fun hc => hdc (hxd.symm.trans hc)
        simp only [beq_iff_eq.mpr hxd, if_neg hxc]
      · simp only [Bool.of_not_eq_true (by simpa using hxd : ¬(x == d) = true)]
        rw [ih c x]

/-- Helper: the folded occurrence table looks up exactly the count. -/
theorem occ_fold_lookup :
    ∀ (l : List Char) (acc : List (Char × Nat)) (x : Char),
      (l.foldl occUpsert acc).lookup x =
        if l.count x = 0 then acc.lookup x
        else some (((acc.lookup x).getD 0) + l.count x) := by
  intro l
  induction l with
  | nil => intro acc x; simp
  | cons c cs ih =>
    intro acc x
    rw [List.foldl_cons, ih (occUpsert acc c) x, occUpsert_lookup acc c x]
    by_cases hx : x = c
    · have hcnt : (c :: cs).count x = cs.count x + 1 := by
        rw [List.count_cons, if_pos (beq_iff_eq.mpr hx.symm)]
      rw [if_pos hx, hcnt]
      by_cases h0 : cs.count x = 0
      · rw [if_pos h0, h0, if_neg (by simp)]
      · rw [if_neg h0, if_neg (by simp)]
        have : (some (((acc.lookup x).getD 0) + 1)).getD 0 + cs.count x =
            ((acc.lookup x).getD 0) + (cs.count x + 1) := by
          simp only [Option.getD_some]
          omega
        rw [this]
    · have hcnt : (c :: cs).count x = cs.count x := by
        rw [List.count_cons,
          if_neg (fun hc => hx (beq_iff_eq.mp hc).symm)]
        omega
      rw [if_neg hx, hcnt]


/-- Helper: a letter of frequency exactly one is in the `singles`
bucket. -/
theorem count_one_mem_singlesOf (l : List Char) (x : Char) (h : l.count x = 1) :
    x ∈ singlesOf l := by
  have hlk : (occurrencesOf l).lookup x = some 1 := by
    unfold occurrencesOf
    rw [occ_fold_lookup l [] x, if_neg (by rw [h]; exact one_ne_zero), h]
    rfl
  unfold singlesOf
  rw [List.mem_map]
  exact ⟨(x, 1), List.mem_filter.mpr ⟨lookup_some_mem _ _ _ hlk, by simp⟩, rfl⟩

/-- Helper: sorted insertion preserves letter counts. -/
theorem count_insertSorted (a x : Char) :
    ∀ l : List Char, (insertSorted a l).count x = l.count x + if a == x then 1 else 0 := by
  intro l
  induction l with
  | nil => simp [insertSorted, List.count_cons]
  | cons b bs ih =>
    unfold insertSorted
    by_cases hab : a ≤ b
    · rw [if_pos hab, List.count_cons, List.count_cons]
    · rw [if_neg hab, List.count_cons, ih, List.count_cons]
      omega

/-- Helper: sorting preserves letter counts. -/
theorem count_sortChars (l : List Char) (x : Char) :
    (sortChars l).count x = l.count x := by
  unfold sortChars
  induction l with
  | nil => rfl
  | cons c cs ih =>
    rw [List.foldr_cons, count_insertSorted, ih, List.count_cons]

/-- C7 (confirmed): no grid that `solve` returns as a solution places a
letter whose frequency in the input rack is exactly one at any cell off
the main diagonal — `check_singles` rejects every candidate word that
would, and each off-diagonal cell of a recorded solution was written by
the `set_word` of some surviving candidate. -/
theorem solve_no_single_occurrence_off_diagonal (find : FindOracle)
    (rack patterns : List (List Char)) (gs : List Grid)
    (hp : patterns.length = 5) (hrows : ∀ p ∈ patterns, p.length = 5)
    (h : solveModel find rack patterns = .ok (.solutions gs)) :
    ∀ g ∈ gs, ∀ a b, a < 5 → b < 5 → a ≠ b →
      (rack.flatten.map Char.toLower).count (getCell g a b) ≠ 1 := by
  unfold solveModel at h
  simp only [] at h
  by_cases hemp : (checkDiagonal (startGridOf patterns)
      (poolAfterUsed rack patterns)).2.isEmpty = true
  · rw [if_pos hemp] at h
    injection h with h
    cases h
  · rw [if_neg hemp] at h
    have hWFcd : gridWF (checkDiagonal (startGridOf patterns)
        (poolAfterUsed rack patterns)).1 :=
      gridWF_checkDiagonalGo _ _ _ (gridWF_startGridOf patterns hp hrows)
    cases htr : traverse find
        (checkDiagonal (startGridOf patterns) (poolAfterUsed rack patterns)).1
        (singlesOf (rackLetters rack))
        ((checkDiagonal (startGridOf patterns) (poolAfterUsed rack patterns)).1.length + 2)
        0 (checkDiagonal (startGridOf patterns) (poolAfterUsed rack patterns)).2
        (checkDiagonal (startGridOf patterns) (poolAfterUsed rack patterns)).1 with
    | error e => simp only [htr, exceptBind_error] at h; cases h
    | ok p =>
      simp only [htr, exceptBind_ok] at h
      injection h with h
      injection h with h
      obtain ⟨_, hsols⟩ := traverse_inv find _ _ hWFcd _ 0 _ _ p hWFcd
        (by intro a b _ _ hlt; rcases hlt with hlt | hlt <;>
          exact absurd hlt (Nat.not_lt_zero _))
        (by intro a b _ _ _ hlt; rcases hlt with hlt | hlt <;>
          exact absurd hlt (Nat.not_lt_zero _))
        htr
      intro g hg a b ha hb hne hcount
      obtain ⟨_, _, hsingg⟩ := hsols g (h ▸ hg)
      refine hsingg a b ha hb hne ?_
      apply count_one_mem_singlesOf
      rw [show rackLetters rack = sortChars (rack.flatten.map Char.toLower) from rfl]
      rw [count_sortChars]
      exact hcount

/-- Witness for C7's theorem at the same concrete zero-solution run as
C1's witness. -/
theorem solve_no_single_occurrence_off_diagonal_witness :
    (emptyPattern.length = 5 ∧ (∀ p ∈ emptyPattern, p.length = 5) ∧
      solveModel nilFind exampleRack emptyPattern = .ok (.solutions [])) ∧
    (∀ g ∈ ([] : List Grid), ∀ a b, a < 5 → b < 5 → a ≠ b →
      (exampleRack.flatten.map Char.toLower).count (getCell g a b) ≠ 1) :=
  ⟨⟨by decide, by decide, by decide⟩,
    solve_no_single_occurrence_off_diagonal nilFind exampleRack emptyPattern []
      (by decide) (by decide) (by decide)⟩

/-- Helper: a lowercase letter is not the split marker. -/
theorem lower_ne_plus (c : Char) (h1 : 'a' ≤ c) : c ≠ '+' := by
  intro hc; subst hc; exact absurd h1 (by decide)

/-- Helper: `toLower` fixes lowercase letters. -/
theorem toLower_of_lower (c : Char) (h1 : 'a' ≤ c) : c.toLower = c := by
  unfold Char.toLower
  have hn : 97 ≤ c.toNat := by
    simp only [Char.le_def] at h1
    exact h1
  rw [if_neg]
  intro hcon
  omega

/-- Helper: `map toLower` fixes lowercase words. -/
theorem map_toLower_of_lower (w : List Char) (h : ∀ c ∈ w, 'a' ≤ c ∧ c ≤ 'z') :
    w.map Char.toLower = w := by
  induction w with
  | nil => rfl
  | cons c cs ih =>
    rw [List.map_cons, toLower_of_lower c (h c (List.mem_cons_self _ _)).1,
      ih (fun d hd => h d (List.mem_cons_of_mem _ hd))]

/-- Helper: nodes below the old length are unchanged by an append. -/
theorem getNode_append (s : GStore) (x : GNode) (id : Nat) (h : id < s.length) :
    getNode (s ++ [x]) id = getNode s id := by
  unfold getNode
  exact List.getD_append _ _ _ _ h

/-- Helper: the appended node is read back. -/
theorem getNode_append_self (s : GStore) (x : GNode) :
    getNode (s ++ [x]) s.length = x := by
  unfold getNode
  rw [List.getD_eq_getElem _ _ (by simp)]
  simp

/-- Helper: `updNode` changes only the targeted node. -/
theorem getNode_updNode_ne (s : GStore) (id id' : Nat) (f : GNode → GNode)
    (h : id' ≠ id) :
    getNode (updNode s id f) id' = getNode s id' := by
  unfold updNode getNode
  rw [getD_set_ne _ _ _ _ _ (fun hc => h hc.symm)]

/-- Helper: `updNode` applies the function at the targeted node. -/
theorem getNode_updNode_self (s : GStore) (id : Nat) (f : GNode → GNode)
    (h : id < s.length) :
    getNode (updNode s id f) id = f (getNode s id) := by
  unfold updNode getNode
  rw [getD_set_self _ _ _ _ h]

/-- Helper: `updNode` preserves the store size. -/
theorem updNode_length (s : GStore) (id : Nat) (f : GNode → GNode) :
    (updNode s id f).length = s.length := List.length_set _ _ _

/-- Helper: dictionary assignment updates exactly one key. -/
theorem assocSet_lookup :
    ∀ (es : List (Char × Nat)) (c : Char) (v : Nat) (x : Char),
      (assocSet es c v).lookup x = if x = c then some v else es.lookup x := by
  intro es
  induction es with
  | nil =>
    intro c v x
    unfold assocSet
    by_cases hx : x = c
    · subst hx; simp [List.lookup_cons]
    · simp [List.lookup_cons, beq_eq_false_iff_ne.mpr hx, hx]
  | cons p es ih =>
    intro c v x
    obtain ⟨d, w⟩ := p
    unfold assocSet
    by_cases hdc : d = c
    · subst hdc
      by_cases hxd : x = d
      · subst hxd; simp [List.lookup_cons]
      · simp [List.lookup_cons, beq_eq_false_iff_ne.mpr hxd, hxd]
    · rw [if_neg hdc]
      by_cases hxd : x = d
      · subst hxd
        simp only [List.lookup_cons, beq_self_eq_true]
        rw [if_neg hdc]
      · simp [List.lookup_cons, beq_eq_false_iff_ne.mpr hxd, hxd, ih c v x]

/-- Helper: entries after dictionary assignment come from the old
dictionary or are the new binding. -/
theorem assocSet_mem :
    ∀ (es : List (Char × Nat)) (c : Char) (v : Nat) (ce : Char × Nat),
      ce ∈ assocSet es c v → ce ∈ es ∨ ce = (c, v) := by
  intro es
  induction es with
  | nil =>
    intro c v ce h
    unfold assocSet at h
    rcases List.mem_cons.mp h with h | h
    · exact Or.inr h
    · simp at h
  | cons p es ih =>
    intro c v ce h
    obtain ⟨d, w⟩ := p
    unfold assocSet at h
    by_cases hdc : d = c
    · rw [if_pos hdc] at h
      rcases List.mem_cons.mp h with h | h
      · exact Or.inr (by rw [h, hdc])
      · exact Or.inl (List.mem_cons_of_mem _ h)
    · rw [if_neg hdc] at h
      rcases List.mem_cons.mp h with h | h
      · exact Or.inl (h ▸ List.mem_cons_self _ _)
      · rcases ih c v ce h with h | h
        · exact Or.inl (List.mem_cons_of_mem _ h)
        · exact Or.inr h

/-- Helper: `StoreMono` is reflexive. -/
theorem storeMono_refl (s : GStore) : StoreMono s s :=
  ⟨Nat.le_refl _, fun _ _ _ _ h => h, fun _ _ h => h⟩

/-- Helper: `StoreMono` composes. -/
theorem storeMono_trans (a b c : GStore) (h1 : StoreMono a b) (h2 : StoreMono b c) :
    StoreMono a c := by
  refine ⟨Nat.le_trans h1.1 h2.1, ?_, ?_⟩
  · intro id ch t hid hl
    exact h2.2.1 id ch t (Nat.lt_of_lt_of_le hid h1.1) (h1.2.1 id ch t hid hl)
  · intro id hid he
    exact h2.2.2 id (Nat.lt_of_lt_of_le hid h1.1) (h1.2.2 id hid he)

/-- Helper: full monotonicity is path-safety for any side set. -/
theorem storeMono_pathSafe (plus : Set Nat) (s s' : GStore) (h : StoreMono s s') :
    PathSafe plus s s' :=
  ⟨h.1, fun id c t hid _ hl => h.2.1 id c t hid hl, h.2.2⟩

/-- Helper: `PathSafe` composes along a growing `'+'` side, as long as
the side only gained fresh ids. -/
theorem pathSafe_comp (plus plus₂ : Set Nat) (a b c : GStore)
    (h1 : PathSafe plus a b) (h2 : PathSafe plus₂ b c)
    (_hsub : plus ⊆ plus₂) (hfresh : ∀ i ∈ plus₂, i < a.length → i ∈ plus) :
    PathSafe plus a c := by
  refine ⟨Nat.le_trans h1.1 h2.1, ?_, ?_⟩
  · intro id ch t hid hnp hl
    have hnp2 : id ∉ plus₂ := fun hc => hnp (hfresh id hc hid)
    exact h2.2.1 id ch t (Nat.lt_of_lt_of_le hid h1.1) hnp2 (h1.2.1 id ch t hid hnp hl)
  · intro id hid he
    exact h2.2.2 id (Nat.lt_of_lt_of_le hid h1.1) (h1.2.2 id hid he)

/-- Helper: `StepOK` is reflexive. -/
theorem stepOK_refl (plus : Set Nat) (s : GStore) (h : GInv s plus) :
    StepOK plus s plus s :=
  ⟨fun _ hx => hx, fun _ hx _ => hx, h, storeMono_pathSafe plus s s (storeMono_refl s)⟩

/-- Helper: `StepOK` composes. -/
theorem stepOK_trans (plus plus₂ plus₃ : Set Nat) (a b c : GStore)
    (h1 : StepOK plus a plus₂ b) (h2 : StepOK plus₂ b plus₃ c) :
    StepOK plus a plus₃ c := by
  obtain ⟨hs1, hf1, hg1, hp1⟩ := h1
  obtain ⟨hs2, hf2, hg2, hp2⟩ := h2
  refine ⟨fun x hx => hs2 (hs1 hx), ?_, hg2, ?_⟩
  · intro i hi hil
    exact hf1 i (hf2 i hi (Nat.lt_of_lt_of_le hil hp1.1)) hil
  · exact pathSafe_comp plus plus₂ a b c hp1 hp2 hs1
      (fun i hi hil => hf1 i hi hil)

/-- Witness for C8's amended theorem at the concrete divergent edge of
the "ab"/"abc" insertion. -/
theorem suffix_edge_overwrite_spec_witness :
    edgeLookup (getNode storeAB 5) 'b' = some 6 ∧
    ((suffixEdgeStep storeAB 5 'b' 3 = .error .attributeError ↔
      (getNode storeAB 6).edges ≠ [] ∧
        labelsEq (labelsOf (getNode storeAB 6)) (labelsOf (getNode storeAB 3)) = false) ∧
      (suffixEdgeStep storeAB 5 'b' 3 ≠ .error .attributeError →
        suffixEdgeStep storeAB 5 'b' 3 = .ok (setEdge storeAB 5 'b' 3))) :=
  ⟨by decide, suffix_edge_overwrite_spec storeAB 5 'b' 3 6 (by decide)⟩

/-- Helper: reading an edge set on a node literal. -/
theorem edgeLookup_mk (es : List (Char × Nat)) (b : Bool) (c : Char) :
    edgeLookup ⟨es, b⟩ c = es.lookup c := rfl

/-- Helper: `setEdge` preserves the store size. -/
theorem setEdge_length (s : GStore) (id : Nat) (c : Char) (d : Nat) :
    (setEdge s id c d).length = s.length := updNode_length _ _ _

/-- Helper: `setEdge` leaves other nodes alone. -/
theorem getNode_setEdge_ne (s : GStore) (id id' : Nat) (c : Char) (d : Nat)
    (h : id' ≠ id) : getNode (setEdge s id c d) id' = getNode s id' :=
  getNode_updNode_ne _ _ _ _ h

/-- Helper: `setEdge` rebinds one key on the targeted node. -/
theorem getNode_setEdge_self (s : GStore) (id : Nat) (c : Char) (d : Nat)
    (h : id < s.length) :
    getNode (setEdge s id c d) id =
      ⟨assocSet (getNode s id).edges c d, (getNode s id).isEnd⟩ :=
  getNode_updNode_self _ _ _ h

/-- Helper: `setEndTrue` preserves the store size. -/
theorem setEndTrue_length (s : GStore) (id : Nat) :
    (setEndTrue s id).length = s.length := updNode_length _ _ _

/-- Helper: `setEndTrue` leaves other nodes alone. -/
theorem getNode_setEndTrue_ne (s : GStore) (id id' : Nat) (h : id' ≠ id) :
    getNode (setEndTrue s id) id' = getNode s id' :=
  getNode_updNode_ne _ _ _ _ h

/-- Helper: `setEndTrue` keeps the edges and sets the flag. -/
theorem getNode_setEndTrue_self (s : GStore) (id : Nat) (h : id < s.length) :
    getNode (setEndTrue s id) id = ⟨(getNode s id).edges, true⟩ :=
  getNode_updNode_self _ _ _ h

/-- Helper: `setEndTrue` never unsets a flag and never rebinds an edge. -/
theorem storeMono_setEndTrue (s : GStore) (id : Nat) : StoreMono s (setEndTrue s id) := by
  refine ⟨Nat.le_of_eq (setEndTrue_length s id).symm, ?_, ?_⟩
  · intro id' c t hid' hl
    by_cases hii : id' = id
    · subst hii
      by_cases hlt : id' < s.length
      · rw [getNode_setEndTrue_self _ _ hlt]
        exact hl
      · unfold setEndTrue updNode getNode
        rw [List.set_eq_of_length_le (Nat.le_of_not_lt hlt)]
        exact hl
    · rw [getNode_setEndTrue_ne _ _ _ hii]
      exact hl
  · intro id' hid' he
    by_cases hii : id' = id
    · subst hii
      by_cases hlt : id' < s.length
      · rw [getNode_setEndTrue_self _ _ hlt]
      · unfold setEndTrue updNode getNode
        rw [List.set_eq_of_length_le (Nat.le_of_not_lt hlt)]
        exact he
    · rw [getNode_setEndTrue_ne _ _ _ hii]
      exact he

/-- Helper: `setEndTrue` preserves the structural invariant (edges are
untouched). -/
theorem ginv_setEndTrue (plus : Set Nat) (s : GStore) (id : Nat)
    (hg : GInv s plus) : GInv (setEndTrue s id) plus := by
  obtain ⟨h0, hp0, hrange, hedges⟩ := hg
  refine ⟨by rw [setEndTrue_length]; exact h0,
    hp0, fun i hi => by rw [setEndTrue_length]; exact hrange i hi, ?_⟩
  intro id' hid' ce hce
  rw [setEndTrue_length] at hid'
  by_cases hii : id' = id
  · subst hii
    by_cases hlt : id' < s.length
    · rw [getNode_setEndTrue_self _ _ hlt] at hce
      have := hedges id' hlt ce hce
      refine ⟨by rw [setEndTrue_length]; exact this.1, this.2⟩
    · exact absurd hid' hlt
  · rw [getNode_setEndTrue_ne _ _ _ hii] at hce
    have := hedges id' hid' ce hce
    exact ⟨by rw [setEndTrue_length]; exact this.1, this.2⟩

/-- Helper: appending a node preserves old reads and flags. -/
theorem storeMono_append (s : GStore) (x : GNode) : StoreMono s (s ++ [x]) := by
  refine ⟨by simp, ?_, ?_⟩
  · intro id c t hid hl
    rw [getNode_append _ _ _ hid]
    exact hl
  · intro id hid he
    rw [getNode_append _ _ _ hid]
    exact he

/-- Helper: appending an edgeless node preserves the invariant. -/
theorem ginv_append_blank (plus : Set Nat) (s : GStore) (e : Bool)
    (hg : GInv s plus) : GInv (s ++ [(⟨[], e⟩ : GNode)]) plus := by
  obtain ⟨h0, hp0, hrange, hedges⟩ := hg
  refine ⟨by simp only [List.length_append, List.length_cons, List.length_nil]; omega,
    hp0,
    fun i hi => by
      have := hrange i hi
      simp only [List.length_append, List.length_cons, List.length_nil]
      omega,
    ?_⟩
  intro id hid ce hce
  by_cases hlt : id < s.length
  · rw [getNode_append _ _ _ hlt] at hce
    obtain ⟨h1, h2, h3⟩ := hedges id hlt ce hce
    refine ⟨?_, h2, h3⟩
    simp only [List.length_append, List.length_cons, List.length_nil]
    omega
  · have hids : id = s.length := by
      simp only [List.length_append, List.length_cons, List.length_nil] at hid
      omega
    subst hids
    rw [getNode_append_self] at hce
    simp at hce

/-- Helper: binding a fresh key never loses a binding or a flag. -/
theorem storeMono_setEdge_new (s : GStore) (id : Nat) (c : Char) (d : Nat)
    (he : edgeLookup (getNode s id) c = none) : StoreMono s (setEdge s id c d) := by
  refine ⟨Nat.le_of_eq (setEdge_length s id c d).symm, ?_, ?_⟩
  · intro id' c' t hid' hl
    by_cases hii : id' = id
    · subst hii
      rw [getNode_setEdge_self _ _ _ _ hid', edgeLookup_mk, assocSet_lookup]
      by_cases hcc : c' = c
      · subst hcc
        rw [hl] at he
        cases he
      · rw [if_neg hcc]
        exact hl
    · rw [getNode_setEdge_ne _ _ _ _ _ hii]
      exact hl
  · intro id' hid' he'
    by_cases hii : id' = id
    · subst hii
      rw [getNode_setEdge_self _ _ _ _ hid']
      exact he'
    · rw [getNode_setEdge_ne _ _ _ _ _ hii]
      exact he'

/-- Helper: following characters distributes over list append. -/
theorem followFrom_append (s : GStore) :
    ∀ (xs ys : List Char) (id : Nat),
      followFrom s id (xs ++ ys) =
        match followFrom s id xs with
        | some m => followFrom s m ys
        | none => none := by
  intro xs
  induction xs with
  | nil => intro ys id; rfl
  | cons c cs ih =>
    intro ys id
    cases h : edgeLookup (getNode s id) c with
    | none => simp only [List.cons_append, followFrom, h]
    | some m =>
      simp only [List.cons_append, followFrom, h]
      exact ih ys m

/-- Helper: a successful walk survives any monotone store extension and
stays in range. -/
theorem followFrom_mono (plus : Set Nat) (s sB : GStore) (hg : GInv s plus)
    (hm : StoreMono s sB) :
    ∀ (cs : List Char) (id t : Nat), id < s.length →
      followFrom s id cs = some t → followFrom sB id cs = some t ∧ t < s.length := by
  intro cs
  induction cs with
  | nil =>
    intro id t hid h
    injection h with h
    subst h
    exact ⟨rfl, hid⟩
  | cons c cs ih =>
    intro id t hid h
    simp only [followFrom] at h ⊢
    cases he : edgeLookup (getNode s id) c with
    | none => simp only [he] at h; cases h
    | some m =>
      simp only [he] at h
      have hmem := lookup_some_mem _ _ _ he
      have hrangem := (hg.2.2.2 id hid (c, m) hmem).1
      have hl := hm.2.1 id c m hid he
      have hrec := ih m t hrangem h
      exact ⟨by simp only [hl]; exact hrec.1, hrec.2⟩

/-- Helper: a successful walk along non-`'+'` characters from a
path-side node survives a path-safe store change, staying on the path
side and in range. -/
theorem followFrom_safe (plus : Set Nat) (s sB : GStore) (hg : GInv s plus)
    (hp : PathSafe plus s sB) :
    ∀ (cs : List Char), (∀ c ∈ cs, c ≠ '+') →
      ∀ (id t : Nat), id < s.length → id ∉ plus →
      followFrom s id cs = some t →
      followFrom sB id cs = some t ∧ t < s.length ∧ t ∉ plus := by
  intro cs
  induction cs with
  | nil =>
    intro _ id t hid hnp h
    injection h with h
    subst h
    exact ⟨rfl, hid, hnp⟩
  | cons c cs ih =>
    intro hcs id t hid hnp h
    simp only [followFrom] at h ⊢
    cases he : edgeLookup (getNode s id) c with
    | none => simp only [he] at h; cases h
    | some m =>
      simp only [he] at h
      have hmem := lookup_some_mem _ _ _ he
      have hclause := hg.2.2.2 id hid (c, m) hmem
      have hmp : m ∉ plus :=
        (hclause.2.1 hnp).2 (hcs c (List.mem_cons_self _ _))
      have hl := hp.2.1 id c m hid hnp he
      have hrec := ih (fun d hd => hcs d (List.mem_cons_of_mem _ hd)) m t hclause.1 hmp h
      exact ⟨by simp only [hl]; exact hrec.1, hrec.2⟩

/-- Helper: `_has`-style membership survives a path-safe store change
when the word has no `'+'`. -/
theorem hasWord_preserved (plus : Set Nat) (s sB : GStore) (w : List Char)
    (hg : GInv s plus) (hp : PathSafe plus s sB)
    (hw : ∀ c ∈ w, c ≠ '+') (h : hasWord s w = true) : hasWord sB w = true := by
  unfold hasWord at h ⊢
  cases hf : followFrom s 0 (w.reverse ++ ['+']) with
  | none => rw [hf] at h; cases h
  | some tid =>
    rw [hf] at h
    rw [followFrom_append] at hf
    cases hm : followFrom s 0 w.reverse with
    | none => simp only [hm] at hf; cases hf
    | some mid =>
      simp only [hm] at hf
      have hrev : ∀ c ∈ w.reverse, c ≠ '+' :=
        fun c hc => hw c (List.mem_reverse.mp hc)
      have hsafe := followFrom_safe plus s sB hg hp w.reverse hrev 0 mid hg.1 hg.2.1 hm
      simp only [followFrom] at hf
      cases he : edgeLookup (getNode s mid) '+' with
      | none => simp only [he] at hf; cases hf
      | some t2 =>
        simp only [he] at hf
        injection hf with hf
        subst hf
        have htr := (hg.2.2.2 mid hsafe.2.1 ('+', t2) (lookup_some_mem _ _ _ he)).1
        have hl := hp.2.1 mid '+' t2 hsafe.2.1 hsafe.2.2 he
        have hend := hp.2.2 t2 htr h
        rw [followFrom_append]
        simp only [hsafe.1, followFrom, hl]
        exact hend

/-- Helper: the fresh store satisfies the invariant with an empty
`'+'` side. -/
theorem ginv_emptyStore : GInv emptyStore ∅ := by
  refine ⟨by decide, fun h => h, fun i hi => hi.elim, ?_⟩
  intro id hid ce hce
  have hlen : emptyStore.length = 1 := rfl
  rw [hlen] at hid
  have hz : id = 0 := by omega
  subst hz
  simp [getNode, emptyStore] at hce

/-- Helper: a fresh GADDAG contains no word at all. -/
theorem hasMember_emptyStore (v : List Char) : hasMember emptyStore v = false := by
  unfold hasMember hasWord
  cases hrev : (v.map Char.toLower).reverse with
  | nil => rfl
  | cons c cs => rfl

/-- Helper: rebinding one edge preserves the invariant when the new
target sits on the right side. -/
theorem ginv_setEdge (plus : Set Nat) (s : GStore) (id : Nat) (c : Char) (d : Nat)
    (hg : GInv s plus) (hid : id < s.length) (hd : d < s.length)
    (hplain : id ∉ plus → (c = '+' → d ∈ plus) ∧ (c ≠ '+' → d ∉ plus))
    (hplus : id ∈ plus → d ∈ plus) :
    GInv (setEdge s id c d) plus := by
  obtain ⟨h0, hp0, hrange, hedges⟩ := hg
  refine ⟨by rw [setEdge_length]; exact h0, hp0,
    fun i hi => by rw [setEdge_length]; exact hrange i hi, ?_⟩
  intro id' hid' ce hce
  rw [setEdge_length] at hid'
  by_cases hii : id' = id
  · subst hii
    rw [getNode_setEdge_self _ _ _ _ hid'] at hce
    rcases assocSet_mem _ _ _ _ hce with hce | hce
    · have := hedges id' hid' ce hce
      exact ⟨by rw [setEdge_length]; exact this.1, this.2⟩
    · subst hce
      exact ⟨by rw [setEdge_length]; exact hd, fun hnp => hplain hnp, fun hin => hplus hin⟩
  · rw [getNode_setEdge_ne _ _ _ _ _ hii] at hce
    have := hedges id' hid' ce hce
    exact ⟨by rw [setEdge_length]; exact this.1, this.2⟩

/-- Helper: appending an edgeless node, counted on the `'+'` side,
preserves the invariant. -/
theorem ginv_append_blank_plus (plus : Set Nat) (s : GStore) (e : Bool)
    (hg : GInv s plus) :
    GInv (s ++ [(⟨[], e⟩ : GNode)]) (plus ∪ {s.length}) := by
  obtain ⟨h0, hp0, hrange, hedges⟩ := hg
  refine ⟨by simp only [List.length_append, List.length_cons, List.length_nil]; omega,
    ?_,
    fun i hi => by
      simp only [List.length_append, List.length_cons, List.length_nil]
      rcases hi with hi | hi
      · exact Nat.lt_succ_of_lt (hrange i hi)
      · rw [Set.mem_singleton_iff] at hi
        omega,
    ?_⟩
  · intro hc
    rcases hc with hc | hc
    · exact hp0 hc
    · rw [Set.mem_singleton_iff] at hc
      omega
  · intro id hid ce hce
    by_cases hlt : id < s.length
    · rw [getNode_append _ _ _ hlt] at hce
      obtain ⟨h1, h2, h3⟩ := hedges id hlt ce hce
      refine ⟨by simp only [List.length_append, List.length_cons, List.length_nil]; omega,
        ?_, ?_⟩
      · intro hnp
        have hnp' : id ∉ plus := fun hin => hnp (Or.inl hin)
        refine ⟨fun hpl => Or.inl ((h2 hnp').1 hpl), fun hne hin => ?_⟩
        rcases hin with hin | hin
        · exact (h2 hnp').2 hne hin
        · rw [Set.mem_singleton_iff] at hin
          omega
      · intro hin
        rcases hin with hin | hin
        · exact Or.inl (h3 hin)
        · rw [Set.mem_singleton_iff] at hin
          omega
    · have hids : id = s.length := by
        simp only [List.length_append, List.length_cons, List.length_nil] at hid
        omega
      subst hids
      rw [getNode_append_self] at hce
      simp at hce

/-- Helper: full specification of `Node.add_edge` with a `None`
destination: the result store is a monotone extension satisfying the
invariant again, and the returned node is bound under the requested
character, landing on the side the edge character dictates. -/
theorem addEdge_none_spec (plus : Set Nat) (s : GStore) (id : Nat) (c : Char) (e : Bool)
    (hg : GInv s plus) (hid : id < s.length) :
    ∃ plus', plus ⊆ plus' ∧ (∀ i ∈ plus', i < s.length → i ∈ plus) ∧
      GInv (addEdge s id c none e).1 plus' ∧
      StoreMono s (addEdge s id c none e).1 ∧
      (addEdge s id c none e).2 < (addEdge s id c none e).1.length ∧
      edgeLookup (getNode (addEdge s id c none e).1 id) c =
        some (addEdge s id c none e).2 ∧
      ((id ∉ plus ∧ c ≠ '+') → (addEdge s id c none e).2 ∉ plus') ∧
      ((id ∈ plus ∨ c = '+') → (addEdge s id c none e).2 ∈ plus') ∧
      (edgeLookup (getNode s id) c = none →
        (getNode (addEdge s id c none e).1 (addEdge s id c none e).2).isEnd = e) := by
  have heq : addEdge s id c none e =
      match edgeLookup (getNode (s ++ [(⟨[], e⟩ : GNode)]) id) c with
      | some t => (s ++ [(⟨[], e⟩ : GNode)], t)
      | none => (setEdge (s ++ [(⟨[], e⟩ : GNode)]) id c s.length, s.length) := rfl
  rw [getNode_append _ _ _ hid] at heq
  cases he : edgeLookup (getNode s id) c with
  | some t =>
    simp only [he] at heq
    rw [heq]
    have hmem := lookup_some_mem _ _ _ he
    obtain ⟨ht, hpl, hpu⟩ := hg.2.2.2 id hid (c, t) hmem
    refine ⟨plus, fun _ hx => hx, fun _ hx _ => hx, ginv_append_blank plus s e hg,
      storeMono_append s _, ?_, ?_, ?_, ?_, ?_⟩
    · show t < (s ++ [(⟨[], e⟩ : GNode)]).length
      simp only [List.length_append, List.length_cons, List.length_nil]
      omega
    · show edgeLookup (getNode (s ++ [(⟨[], e⟩ : GNode)]) id) c = some t
      rw [getNode_append _ _ _ hid]
      exact he
    · intro hcon
      exact (hpl hcon.1).2 hcon.2
    · intro hcon
      rcases hcon with hin | hpc
      · exact hpu hin
      · by_cases hin : id ∈ plus
        · exact hpu hin
        · exact (hpl hin).1 hpc
    · intro hnone
      exact Option.noConfusion hnone
  | none =>
    simp only [he] at heq
    rw [heq]
    have hid1 : id < (s ++ [(⟨[], e⟩ : GNode)]).length := by
      simp only [List.length_append, List.length_cons, List.length_nil]
      omega
    have hel : edgeLookup (getNode (s ++ [(⟨[], e⟩ : GNode)]) id) c = none := by
      rw [getNode_append _ _ _ hid]
      exact he
    have hmono : StoreMono s (setEdge (s ++ [(⟨[], e⟩ : GNode)]) id c s.length) :=
      storeMono_trans _ _ _ (storeMono_append s _) (storeMono_setEdge_new _ _ _ _ hel)
    have hlook : edgeLookup
        (getNode (setEdge (s ++ [(⟨[], e⟩ : GNode)]) id c s.length) id) c =
        some s.length := by
      rw [getNode_setEdge_self _ _ _ _ hid1, edgeLookup_mk, assocSet_lookup, if_pos rfl]
    have hendE : (getNode (setEdge (s ++ [(⟨[], e⟩ : GNode)]) id c s.length)
        s.length).isEnd = e := by
      rw [getNode_setEdge_ne _ _ _ _ _ (Nat.ne_of_gt hid), getNode_append_self]
    have hdlt : s.length < (s ++ [(⟨[], e⟩ : GNode)]).length := by
      simp only [List.length_append, List.length_cons, List.length_nil]
      omega
    have hfresh_not : s.length ∉ plus := fun hc => Nat.lt_irrefl _ (hg.2.2.1 _ hc)
    have hslen : (setEdge (s ++ [(⟨[], e⟩ : GNode)]) id c s.length).length =
        s.length + 1 := by
      rw [setEdge_length]
      simp
    by_cases hside : id ∈ plus ∨ c = '+'
    · refine ⟨plus ∪ {s.length}, Set.subset_union_left, ?_, ?_, hmono, ?_, hlook, ?_, ?_, ?_⟩
      · intro i hi hil
        rcases hi with hi | hi
        · exact hi
        · rw [Set.mem_singleton_iff] at hi
          omega
      · refine ginv_setEdge (plus ∪ {s.length}) _ id c s.length
          (ginv_append_blank_plus plus s e hg) hid1 hdlt ?_ ?_
        · intro hnp
          have hnp' : id ∉ plus := fun hin => hnp (Or.inl hin)
          have hpc : c = '+' := by
            rcases hside with hin | hpc
            · exact absurd hin hnp'
            · exact hpc
          exact ⟨fun _ => Or.inr rfl, fun hne => absurd hpc hne⟩
        · intro _
          exact Or.inr rfl
      · show s.length < (setEdge (s ++ [(⟨[], e⟩ : GNode)]) id c s.length).length
        rw [hslen]
        omega
      · intro hcon
        rcases hside with hin | hpc
        · exact absurd hin hcon.1
        · exact absurd hpc hcon.2
      · intro _
        exact Or.inr rfl
      · intro _
        exact hendE
    · refine ⟨plus, fun _ hx => hx, fun _ hx _ => hx, ?_, hmono, ?_, hlook, ?_, ?_, ?_⟩
      · refine ginv_setEdge plus _ id c s.length
          (ginv_append_blank plus s e hg) hid1 hdlt ?_ ?_
        · intro _
          exact ⟨fun hpc => absurd (Or.inr hpc) hside,
            fun _ => hfresh_not⟩
        · intro hin
          exact absurd (Or.inl hin) hside
      · show s.length < (setEdge (s ++ [(⟨[], e⟩ : GNode)]) id c s.length).length
        rw [hslen]
        omega
      · intro _
        exact hfresh_not
      · intro hcon
        exact absurd hcon hside
      · intro _
        exact hendE

/-- Helper: one step of `Node.add_path`. -/
theorem addPath_cons (s : GStore) (id : Nat) (c : Char) (cs : List Char) :
    addPath s id (c :: cs) =
      addPath (addEdge s id c none false).1 (addEdge s id c none false).2 cs := rfl

/-- Helper: full specification of `Node.add_path` from a path-side
node along non-`'+'` characters: a monotone extension whose result node
is reachable by following the characters and stays on the path side. -/
theorem addPath_spec :
    ∀ (cs : List Char) (plus : Set Nat) (s : GStore) (id : Nat),
      GInv s plus → id < s.length → id ∉ plus → (∀ c ∈ cs, c ≠ '+') →
      ∃ plus', plus ⊆ plus' ∧ (∀ i ∈ plus', i < s.length → i ∈ plus) ∧
        GInv (addPath s id cs).1 plus' ∧
        StoreMono s (addPath s id cs).1 ∧
        (addPath s id cs).2 < (addPath s id cs).1.length ∧
        (addPath s id cs).2 ∉ plus' ∧
        followFrom (addPath s id cs).1 id cs = some (addPath s id cs).2 := by
  intro cs
  induction cs with
  | nil =>
    intro plus s id hg hid hnp _
    exact ⟨plus, fun _ hx => hx, fun _ hx _ => hx, hg, storeMono_refl s, hid, hnp, rfl⟩
  | cons c cs ih =>
    intro plus s id hg hid hnp hcs
    obtain ⟨p1, hsub1, hfr1, hg1, hm1, hlt1, hlook1, hnp1c, -, -⟩ :=
      addEdge_none_spec plus s id c false hg hid
    have hcne : c ≠ '+' := hcs c (List.mem_cons_self _ _)
    have hnp1 : (addEdge s id c none false).2 ∉ p1 := hnp1c ⟨hnp, hcne⟩
    obtain ⟨p2, hsub2, hfr2, hg2, hm2, hlt2, hnp2, hfol2⟩ :=
      ih p1 (addEdge s id c none false).1 (addEdge s id c none false).2 hg1 hlt1 hnp1
        (fun d hd => hcs d (List.mem_cons_of_mem _ hd))
    rw [addPath_cons]
    refine ⟨p2, fun x hx => hsub2 (hsub1 hx), ?_, hg2,
      storeMono_trans _ _ _ hm1 hm2, hlt2, hnp2, ?_⟩
    · intro i hi hil
      exact hfr1 i (hfr2 i hi (Nat.lt_of_lt_of_le hil hm1.1)) hil
    · have hidlt : id < (addEdge s id c none false).1.length :=
        Nat.lt_of_lt_of_le hid hm1.1
      have hlookF := hm2.2.1 id c (addEdge s id c none false).2 hidlt hlook1
      simp only [followFrom, hlookF]
      exact hfol2

/-- Helper: `Node.add_edge` with an explicit destination and no
existing binding just writes the edge. -/
theorem addEdge_some_eq (s : GStore) (id : Nat) (c : Char) (d : Nat) (e : Bool)
    (h : edgeLookup (getNode s id) c = none) :
    addEdge s id c (some d) e = (setEdge s id c d, d) := by
  have heq : addEdge s id c (some d) e =
      match edgeLookup (getNode s id) c with
      | some t => (s, t)
      | none => (setEdge s id c d, d) := rfl
  rw [heq, h]

/-- Helper: `Node.add_end` preserves the invariant and never unsets a
flag nor rebinds an edge. -/
theorem addEnd_spec (plus : Set Nat) (s : GStore) (id : Nat) (c : Char)
    (hg : GInv s plus) (hid : id < s.length) :
    ∃ plus', plus ⊆ plus' ∧ (∀ i ∈ plus', i < s.length → i ∈ plus) ∧
      GInv (addEnd s id c) plus' ∧ StoreMono s (addEnd s id c) := by
  unfold addEnd
  cases he : edgeLookup (getNode s id) c with
  | some t =>
    exact ⟨plus, fun _ hx => hx, fun _ hx _ => hx,
      ginv_setEndTrue plus s t hg, storeMono_setEndTrue s t⟩
  | none =>
    obtain ⟨p1, hsub1, hfr1, hg1, hm1, -, -, -, -, -⟩ :=
      addEdge_none_spec plus s id c true hg hid
    exact ⟨p1, hsub1, hfr1, hg1, hm1⟩

/-- Helper: after `Node.add_end` under `'+'`, the `'+'` edge leads to
an end-flagged node. -/
theorem addEnd_plus_establishes (plus : Set Nat) (s : GStore) (id : Nat)
    (hg : GInv s plus) (hid : id < s.length) :
    ∃ t, edgeLookup (getNode (addEnd s id '+') id) '+' = some t ∧
      t < (addEnd s id '+').length ∧
      (getNode (addEnd s id '+') t).isEnd = true := by
  unfold addEnd
  cases he : edgeLookup (getNode s id) '+' with
  | some t =>
    have ht := (hg.2.2.2 id hid ('+', t) (lookup_some_mem _ _ _ he)).1
    refine ⟨t, ?_, by rw [setEndTrue_length]; exact ht, ?_⟩
    · by_cases hii : id = t
      · subst hii
        rw [getNode_setEndTrue_self _ _ ht, edgeLookup_mk]
        exact he
      · rw [getNode_setEndTrue_ne _ _ _ hii]
        exact he
    · rw [getNode_setEndTrue_self _ _ ht]
  | none =>
    obtain ⟨p1, -, -, -, -, hlt1, hlook1, -, -, hend1⟩ :=
      addEdge_none_spec plus s id '+' true hg hid
    exact ⟨(addEdge s id '+' none true).2, hlook1, hlt1, hend1 he⟩

/-- Helper: a successful suffix-edge step from a `'+'`-side node to a
`'+'`-side node preserves the invariant, keeps the path side intact and
keeps the store size. -/
theorem suffixEdgeStep_spec (plus : Set Nat) (s : GStore) (id : Nat) (c : Char)
    (existing : Nat) (hg : GInv s plus) (hid : id < s.length) (hidp : id ∈ plus)
    (hex : existing < s.length) (hexp : existing ∈ plus) (s₂ : GStore)
    (h : suffixEdgeStep s id c existing = .ok s₂) :
    GInv s₂ plus ∧ PathSafe plus s s₂ ∧ s₂.length = s.length := by
  have hkey : ∀ _hset : s₂ = setEdge s id c existing,
      GInv s₂ plus ∧ PathSafe plus s s₂ ∧ s₂.length = s.length := by
    intro hset
    subst hset
    refine ⟨ginv_setEdge plus s id c existing hg hid hex
        (fun hnp => absurd hidp hnp) (fun _ => hexp), ?_, setEdge_length _ _ _ _⟩
    refine ⟨Nat.le_of_eq (setEdge_length _ _ _ _).symm, ?_, ?_⟩
    · intro id' c' t hid' hnp' hl
      have hii : id' ≠ id := fun hcc => hnp' (hcc ▸ hidp)
      rw [getNode_setEdge_ne _ _ _ _ _ hii]
      exact hl
    · intro id' hid' he'
      by_cases hii : id' = id
      · subst hii
        rw [getNode_setEdge_self _ _ _ _ hid']
        exact he'
      · rw [getNode_setEdge_ne _ _ _ _ _ hii]
        exact he'
  unfold suffixEdgeStep at h
  cases he : edgeLookup (getNode s id) c with
  | some t =>
    simp only [he] at h
    by_cases hcond : (decide ((getNode s t).edges.length > 0) &&
        !labelsEq (labelsOf (getNode s t)) (labelsOf (getNode s existing))) = true
    · rw [if_pos hcond] at h
      cases h
    · rw [if_neg hcond] at h
      injection h with h
      exact hkey h.symm
  | none =>
    simp only [he] at h
    injection h with h
    refine hkey ?_
    rw [← h, addEdge_some_eq s id c existing false he]

/-- Helper: a successful run of `_add_word`'s split-position loop
preserves the invariant and keeps the path side intact. -/
theorem addWordLoop_spec (w : List Char) (hw : ∀ c ∈ w, c ≠ '+') :
    ∀ (ms : List Nat) (plus : Set Nat) (s : GStore) (node : Nat),
      GInv s plus → node ∈ plus → node < s.length →
      ∀ sF, addWordLoop s w node ms = .ok sF →
      ∃ plus', plus ⊆ plus' ∧ (∀ i ∈ plus', i < s.length → i ∈ plus) ∧
        GInv sF plus' ∧ PathSafe plus s sF := by
  intro ms
  induction ms with
  | nil =>
    intro plus s node hg _ _ sF h
    injection h with h
    subst h
    exact ⟨plus, fun _ hx => hx, fun _ hx _ => hx, hg,
      storeMono_pathSafe plus s s (storeMono_refl s)⟩
  | cons m ms ih =>
    intro plus s node hg hnodep hnodel sF h
    simp only [addWordLoop] at h
    have htake : ∀ c ∈ (w.take (m + 1)).reverse, c ≠ '+' :=
      fun c hc => hw c (List.take_subset _ _ (List.mem_reverse.mp hc))
    obtain ⟨p1, hsub1, hfr1, hg1, hm1, hlt1, hnp1, -⟩ :=
      addPath_spec (w.take (m + 1)).reverse plus s 0 hg hg.1 hg.2.1 htake
    obtain ⟨p2, hsub2, hfr2, hg2, hm2, hlt2, hlook2, -, hinp2, -⟩ :=
      addEdge_none_spec p1 _ _ '+' false hg1 hlt1
    have hq2 : (addEdge (addPath s 0 (w.take (m + 1)).reverse).1
        (addPath s 0 (w.take (m + 1)).reverse).2 '+' none false).2 ∈ p2 :=
      hinp2 (Or.inr rfl)
    split at h
    · cases h
    · rename_i s₂ hstep
      have hnode2l : node < (addEdge (addPath s 0 (w.take (m + 1)).reverse).1
          (addPath s 0 (w.take (m + 1)).reverse).2 '+' none false).1.length :=
        Nat.lt_of_lt_of_le hnodel (Nat.le_trans hm1.1 hm2.1)
      have hnode2p : node ∈ p2 := hsub2 (hsub1 hnodep)
      obtain ⟨hg3, hps3, hlen3⟩ :=
        suffixEdgeStep_spec p2 _ _ _ node hg2 hlt2 hq2 hnode2l hnode2p s₂ hstep
      obtain ⟨p3, hsub3, hfr3, hg4, hps4⟩ :=
        ih p2 s₂ _ hg3 hq2 (by rw [hlen3]; exact hlt2) sF h
      have hfr12 : ∀ i ∈ p2, i < s.length → i ∈ plus := by
        intro i hi hil
        exact hfr1 i (hfr2 i hi (Nat.lt_of_lt_of_le hil hm1.1)) hil
      refine ⟨p3, fun x hx => hsub3 (hsub2 (hsub1 hx)), ?_, hg4, ?_⟩
      · intro i hi hil
        have hil2 : i < s₂.length := by
          rw [hlen3]
          exact Nat.lt_of_lt_of_le hil (Nat.le_trans hm1.1 hm2.1)
        exact hfr12 i (hfr3 i hi hil2) hil
      · have psA : PathSafe plus s (addEdge (addPath s 0 (w.take (m + 1)).reverse).1
            (addPath s 0 (w.take (m + 1)).reverse).2 '+' none false).1 :=
          pathSafe_comp plus p1 _ _ _ (storeMono_pathSafe plus _ _ hm1)
            (storeMono_pathSafe p1 _ _ hm2) hsub1 hfr1
        have psB : PathSafe plus s s₂ :=
          pathSafe_comp plus p2 _ _ _ psA hps3 (fun x hx => hsub2 (hsub1 hx)) hfr12
        exact pathSafe_comp plus p2 _ _ _ psB hps4 (fun x hx => hsub2 (hsub1 hx)) hfr12

/-- Helper: invert a successful `Except` bind. -/
theorem exceptBind_ok_inv {ε α β : Type _} (x : Except ε α) (f : α → Except ε β) (r : β)
    (h : (x >>= f) = .ok r) : ∃ a, x = .ok a ∧ f a = .ok r := by
  cases x with
  | error e => simp only [exceptBind_error] at h; cases h
  | ok a => exact ⟨a, rfl, h⟩

/-- C2: adding a word of at least two lowercase letters to a
well-formed GADDAG via `add` makes a subsequent membership test
(`__contains__`/`_has`) return `True`, the store stays well-formed, and
on a fresh GADDAG — into which no word was ever inserted — the
membership test returns `False` for every word. -/
theorem add_word_membership_roundtrip (S : GStore) (w : List Char)
    (hS : WFStore S) (hw : goodWord w) (S' : GStore) (b : Bool)
    (h : addWord S w = .ok (S', b)) :
    hasMember S' w = true ∧ WFStore S' ∧ ∀ v, hasMember emptyStore v = false := by
  obtain ⟨plus, hg⟩ := hS
  have hlower : w.map Char.toLower = w :=
    map_toLower_of_lower w (fun c hc => hw.2 c hc)
  have hplus_free : ∀ c ∈ w, c ≠ '+' := fun c hc => lower_ne_plus c (hw.2 c hc).1
  unfold addWord at h
  by_cases hmem : hasMember S w = true
  · rw [if_pos hmem] at h
    injection h with h
    have hSS : S' = S := (congrArg Prod.fst h).symm
    subst hSS
    exact ⟨hmem, ⟨plus, hg⟩, hasMember_emptyStore⟩
  · rw [if_neg hmem] at h
    cases hwl : w.getLast? with
    | none =>
      simp only [hwl, exceptBind_error] at h
      cases h
    | some lc =>
    simp only [hwl, exceptBind_ok] at h
    obtain ⟨s₃, hloop, hfin⟩ := exceptBind_ok_inv _ _ _ h
    injection hfin with hfin
    have hS3 : s₃ = S' := congrArg Prod.fst hfin
    subst hS3
    have hrevp : ∀ c ∈ w.reverse, c ≠ '+' :=
      fun c hc => hplus_free c (List.mem_reverse.mp hc)
    obtain ⟨p1, hsub1, hfr1, hg1, hm1, hlt1, hnp1, hfol1⟩ :=
      addPath_spec w.reverse plus S 0 hg hg.1 hg.2.1 hrevp
    obtain ⟨p2, hsub2, hfr2, hg2, hm2⟩ := addEnd_spec p1 _ _ '+' hg1 hlt1
    obtain ⟨t0, hlookt0, hltt0, hendt0⟩ := addEnd_plus_establishes p1 _ _ hg1 hlt1
    have hfolB := followFrom_mono p1 _ _ hg1 hm2 w.reverse 0 _ hg1.1 hfol1
    have hhasB : hasWord (addEnd (addPath S 0 w.reverse).1
        (addPath S 0 w.reverse).2 '+') w = true := by
      unfold hasWord
      rw [followFrom_append]
      simp only [hfolB.1, followFrom, hlookt0]
      exact hendt0
    have htkp : ∀ c ∈ (w.take (w.length - 1)).reverse, c ≠ '+' :=
      fun c hc => hplus_free c (List.take_subset _ _ (List.mem_reverse.mp hc))
    obtain ⟨p3, hsub3, hfr3, hg3, hm3, hlt3, hnp3, -⟩ :=
      addPath_spec (w.take (w.length - 1)).reverse p2 _ 0 hg2 hg2.1 hg2.2.1 htkp
    obtain ⟨p4, hsub4, hfr4, hg4, hm4, hlt4, hlook4, -, hinp4, -⟩ :=
      addEdge_none_spec p3 _ _ '+' false hg3 hlt3
    have hq4 := hinp4 (Or.inr rfl)
    obtain ⟨p5, hsub5, hfr5, hg5, hm5⟩ := addEnd_spec p4 _ _ lc hg4 hlt4
    have hq5 := hsub5 hq4
    have hq5l := Nat.lt_of_lt_of_le hlt4 hm5.1
    obtain ⟨p6, hsub6, hfr6, hg6, hps6⟩ :=
      addWordLoop_spec w hplus_free _ p5 _ _ hg5 hq5 hq5l s₃ hloop
    have psBC := storeMono_pathSafe p2 _ _ hm3
    have psBD := pathSafe_comp p2 p3 _ _ _ psBC
      (storeMono_pathSafe p3 _ _ hm4) hsub3 hfr3
    have hfrBD : ∀ i ∈ p4, i < (addEnd (addPath S 0 w.reverse).1
        (addPath S 0 w.reverse).2 '+').length → i ∈ p2 := by
      intro i hi hil
      exact hfr3 i (hfr4 i hi (Nat.lt_of_lt_of_le hil hm3.1)) hil
    have psBE := pathSafe_comp p2 p4 _ _ _ psBD
      (storeMono_pathSafe p4 _ _ hm5) (fun x hx => hsub4 (hsub3 hx)) hfrBD
    have hfrBE : ∀ i ∈ p5, i < (addEnd (addPath S 0 w.reverse).1
        (addPath S 0 w.reverse).2 '+').length → i ∈ p2 := by
      intro i hi hil
      exact hfrBD i (hfr5 i hi (Nat.lt_of_lt_of_le hil (Nat.le_trans hm3.1 hm4.1))) hil
    have psBS3 := pathSafe_comp p2 p5 _ _ _ psBE hps6
      (fun x hx => hsub5 (hsub4 (hsub3 hx))) hfrBE
    have hhasS3 : hasWord s₃ w = true :=
      hasWord_preserved p2 _ s₃ w hg2 psBS3 hplus_free hhasB
    refine ⟨?_, ⟨p6, hg6⟩, hasMember_emptyStore⟩
    unfold hasMember
    rw [hlower]
    exact hhasS3

/-- Witness for C2 at the concrete insertion of "ab" into a fresh
GADDAG. -/
theorem add_word_membership_roundtrip_witness :
    hasMember storeAB ['a', 'b'] = true ∧ WFStore storeAB ∧
      ∀ v, hasMember emptyStore v = false :=
  add_word_membership_roundtrip emptyStore ['a', 'b'] ⟨∅, ginv_emptyStore⟩
    ⟨by decide, by decide⟩ storeAB true (by decide)

end Alphamuddle
